import Mathlib

/-!
Verification of the roam code-intelligence engine's core algorithms.

This file gives a shallow embedding, in Lean, of the parts of the
source that the checked claims are about:

* `src/roam/index/relations.py` — reference resolution into symbol
  edges (`resolve_references`, `_best_match`, `_closest_symbol`,
  `_match_import_path`, `_resolve_salesforce_import`,
  `build_file_edges`);
* `src/roam/graph/cycles.py` — `find_cycles` (strongly connected
  components of size ≥ 2, sorted by size descending);
* `src/roam/graph/pathfinding.py` — `_ensure_weights` edge weighting;
* `src/roam/graph/clusters.py` — `label_clusters` community labels;
* `src/roam/languages/javascript_lang.py` — the Salesforce ESM import
  emission of `_extract_esm_import` / `_resolve_salesforce_import_target`;
* `src/roam/index/parser.py` — `_preprocess_vue` SFC preprocessing.

Modelling conventions: Python dicts become association lists that keep
insertion order (as CPython dicts do); Python `None`-able strings
become `""` where the source only ever tests truthiness; Python floats
become `Rat` (exact rationals; the float literals `1.0`, `1.1`, `0.4`
appearing in the source are used only for order comparisons and
percentage rounding, where the rational value is the intended one);
Python `str` is `String`, except in the JavaScript-import and Vue
modules where `List Char` is used so that positional reasoning is
direct.  Whitespace for the regex class `\s` is modelled as ASCII
whitespace.
-/

namespace Roam

/-! ## Generic helpers: association lists and string utilities -/

/-- Lookup in an association list: models `dict.get` (dict keys are unique,
so first-match lookup agrees with the Python dict). -/
def alistLookup {κ β : Type} [DecidableEq κ] : List (κ × β) → κ → Option β
  | [], _ => none
  | (k, v) :: rest, key => if k = key then some v else alistLookup rest key

/-- Does `pat` occur at the head of `s`?  (Models `str.startswith` on
character lists.) -/
def headIs : List Char → List Char → Bool
  | [], _ => true
  | _ :: _, [] => false
  | p :: ps, c :: cs => p = c && headIs ps cs

/-- Index of the first occurrence of `pat` in `s` (models `str.find` /
the `in` operator). -/
def findSub (pat : List Char) : List Char → Option Nat
  | [] => if headIs pat [] then some 0 else none
  | c :: rest =>
      if headIs pat (c :: rest) then some 0
      else (findSub pat rest).map (· + 1)

/-- Index of the last occurrence of `pat` in `s` (models `str.rfind`). -/
def rfindSub (pat : List Char) : List Char → Option Nat
  | [] => if headIs pat [] then some 0 else none
  | c :: rest =>
      match rfindSub pat rest with
      | some j => some (j + 1)
      | none => if headIs pat (c :: rest) then some 0 else none

/-- Substring membership, models Python's `pat in s` for strings. -/
def strHasSub (s pat : String) : Bool := (findSub pat.toList s.toList).isSome

/-- Everything before the last occurrence of `pat`: models
`s.rsplit(pat, 1)[0]` when `pat` occurs in `s`. -/
def rsplitBefore (s pat : String) : String :=
  match rfindSub pat.toList s.toList with
  | some i => String.mk (s.toList.take i)
  | none => s

/-- Drop trailing `/` characters: models `str.rstrip("/")`. -/
def rstripSlash (cs : List Char) : List Char :=
  (cs.reverse.dropWhile (· = '/')).reverse

/-- POSIX `os.path.dirname`: take everything up to and including the last
`/`, then strip trailing slashes unless the result is all slashes. -/
def posixDirname (p : String) : String :=
  let cs := p.toList
  match rfindSub ['/'] cs with
  | none => ""
  | some i =>
      let head := cs.take (i + 1)
      if head ≠ [] ∧ head.any (· ≠ '/') then String.mk (rstripSlash head)
      else String.mk head

/-- Models `os.path.dirname(source_file) if source_file else ""`. -/
def sourceDirOf (source_file : String) : String :=
  if source_file ≠ "" then posixDirname source_file else ""

/-- Single-character replacement, models `s.replace("\\", "/")`. -/
def replBackslash (s : String) : String :=
  String.mk (s.toList.map (fun c => if c = '\\' then '/' else c))

/-- Models `s.split(".")[0]`. -/
def headSegBeforeDot (s : String) : String :=
  String.mk (s.toList.takeWhile (· ≠ '.'))

/-- Models `s.split(".")[-1]`. -/
def lastSegAfterDot (s : String) : String :=
  String.mk ((s.toList.reverse.takeWhile (· ≠ '.')).reverse)

/-- Stable insertion into a sorted list: the new element goes before
the first element it compares `le` to, so earlier-inserted equals stay
first. -/
def pyInsertSorted {α : Type} (le : α → α → Bool) (x : α) : List α → List α
  | [] => [x]
  | y :: ys => if le x y then x :: y :: ys else y :: pyInsertSorted le x ys

/-- A stable sort (insertion sort).  Python's `list.sort` and
`sorted` are stable sorts; any two stable sorts agree, so this models
them exactly. -/
def pySort {α : Type} (le : α → α → Bool) (l : List α) : List α :=
  l.foldr (pyInsertSorted le) []

/-! ## Data model (`relations.py`)

Symbol dictionaries carry `id`, `name`, `qualified_name`, `kind`,
`file_path`, `file_id`, `line_start`, `line_end`, `is_exported`.
Missing string values are modelled as `""` (the source only tests them
for truthiness or equality), a missing/`None` `line_start`/`line_end`
as `0` (the source reads them as `sym.get(...) or 0`). -/

structure Sym where
  id : Nat
  name : String
  qualified_name : String
  kind : String
  file_path : String
  file_id : Nat
  line_start : Nat
  line_end : Nat
  is_exported : Bool
deriving DecidableEq

/-- Reference records: `source_name`, `target_name`, `kind`, `line`,
`source_file`, `import_path` (missing import path modelled as `""`,
missing kind as the source default `"call"`). -/
structure Ref where
  source_name : String
  target_name : String
  kind : String
  line : Option Nat
  source_file : String
  import_path : String
deriving DecidableEq

structure Edge where
  source_id : Nat
  target_id : Nat
  kind : String
  line : Option Nat
deriving DecidableEq

/-- The `symbols_by_name` argument: name → symbols carrying that name. -/
abbrev SymTbl := List (String × List Sym)

def lookupSyms (tbl : SymTbl) (n : String) : List Sym :=
  (alistLookup tbl n).getD []

/-- All symbols listed in the table (union of its value lists). -/
def allSyms (tbl : SymTbl) : List Sym := tbl.flatMap (·.2)

/-- Append `s` to the list at key `k`, creating the entry if absent
(models `dict.setdefault(k, []).append(s)`). -/
def alInsertAppend (m : SymTbl) (k : String) (s : Sym) : SymTbl :=
  match m with
  | [] => [(k, [s])]
  | (k', v) :: rest =>
      if k' = k then (k', v ++ [s]) :: rest
      else (k', v) :: alInsertAppend rest k s

/-- Lines 22–28 of `relations.py`: qualified_name → symbols map. -/
def buildQualified (tbl : SymTbl) : SymTbl :=
  (allSyms tbl).foldl
    (fun m s => if s.qualified_name ≠ "" then alInsertAppend m s.qualified_name s else m)
    []

/-- Overwrite-or-append keyed insertion (models `d[k] = v`). -/
def impInsert (m : List ((String × String) × String)) (k : String × String)
    (v : String) : List ((String × String) × String) :=
  match m with
  | [] => [(k, v)]
  | (k', v') :: rest =>
      if k' = k then (k', v) :: rest else (k', v') :: impInsert rest k v

/-- Lines 30–36 of `relations.py`: (source_file, imported_name) → import path. -/
def buildImportMap (refs : List Ref) : List ((String × String) × String) :=
  refs.foldl
    (fun m r =>
      if r.kind = "import" ∧ r.import_path ≠ "" then
        if r.source_file ≠ "" ∧ r.target_name ≠ "" then
          impInsert m (r.source_file, r.target_name) r.import_path
        else m
      else m)
    []

/-- Lines 38–48 of `relations.py`: file_path → symbols of that file,
each list sorted (stably) by `line_start`. -/
def buildFileSymbols (tbl : SymTbl) : SymTbl :=
  let m := (allSyms tbl).foldl
    (fun m s => if s.file_path ≠ "" then alInsertAppend m s.file_path s else m)
    []
  m.map (fun kv => (kv.1, pySort (fun a b => decide (a.line_start ≤ b.line_start)) kv.2))

/-! ## `_resolve_salesforce_import` and `_match_import_path` -/

/-- Lines 140–167 of `relations.py`. -/
def resolveSalesforceImport (ip : String) (candidates : List Sym) : List Sym :=
  if ¬ ip.startsWith "@salesforce/" then []
  else if ip.startsWith "@salesforce/apex/" then
    let apex_ref := ip.drop "@salesforce/apex/".length
    let class_name := headSegBeforeDot apex_ref
    candidates.filter (fun c =>
      c.file_path.endsWith ("/" ++ class_name ++ ".cls")
      || c.file_path.endsWith ("/" ++ class_name ++ ".trigger"))
  else if ip.startsWith "@salesforce/schema/" then
    let schema_ref := ip.drop "@salesforce/schema/".length
    let simple := if strHasSub schema_ref "." then lastSegAfterDot schema_ref else schema_ref
    candidates.filter (fun c => c.qualified_name == schema_ref || c.name == simple)
  else if ip.startsWith "@salesforce/label/" then
    let label_ref := ip.drop "@salesforce/label/".length
    let label_ref := if label_ref.startsWith "c." then label_ref.drop 2 else label_ref
    candidates.filter (fun c => c.name == label_ref)
  else []

def importExts : List String := [".ts", ".js", ".vue", ".tsx", ".jsx", ".py"]

/-- Strip the first matching extension (the source loops over the
extension tuple and `break`s at the first hit). -/
def stripExt (s : String) : String :=
  match importExts.find? (fun e => s.endsWith e) with
  | some e => s.dropRight e.length
  | none => s

/-- Import-path normalization from lines 191–205 of `relations.py`. -/
def normalizeImportPath (ip : String) : String :=
  let n := replBackslash ip
  let n :=
    if n.startsWith "@/" then "src/" ++ n.drop 2
    else if n.startsWith "./" then n.drop 2
    else n
  stripExt n

/-- Lines 170–224 of `relations.py`.  The source's append loop with
`if`/`elif` keeps exactly the candidates satisfying the disjunction of
the two conditions, in order, which is this filter. -/
def matchImportPath (ip : String) (candidates : List Sym) : List Sym :=
  if ip = "" then []
  else
    let sf_matches := resolveSalesforceImport ip candidates
    if ¬ sf_matches.isEmpty then sf_matches
    else
      let normalized := normalizeImportPath ip
      candidates.filter (fun cand =>
        let fp := replBackslash cand.file_path
        let fp_no_ext := stripExt fp
        (fp_no_ext.endsWith ("/" ++ normalized) || fp_no_ext == normalized)
        || (fp.startsWith (normalized ++ "/") || strHasSub fp ("/" ++ normalized ++ "/")))

/-! ## `_best_match` (lines 227–295 of `relations.py`) -/

/-- Models `name and name[0].isupper()`. -/
def firstCharUpper (name : String) : Bool :=
  match name.toList with
  | [] => false
  | c :: _ => c.isUpper

def bestMatch (name source_file : String) (tbl : SymTbl) (ref_kind : String)
    (source_parent : String) (impMapArg : List ((String × String) × String)) :
    Option Sym :=
  let candidates := lookupSyms tbl name
  if candidates.isEmpty then none
  else if candidates.length = 1 then candidates.head?
  else
    let ctor : Option Sym :=
      if ref_kind = "call" ∧ name ≠ "" ∧ firstCharUpper name then
        let class_candidates := candidates.filter (fun c => c.kind == "class")
        if class_candidates.isEmpty then none
        else
          match class_candidates.find? (fun s => s.file_path == source_file) with
          | some s => some s
          | none =>
              match class_candidates.find?
                  (fun s => posixDirname s.file_path == sourceDirOf source_file) with
              | some s => some s
              | none => class_candidates.head?
      else none
    match ctor with
    | some s => some s
    | none =>
      let same_file := candidates.filter (fun s => s.file_path == source_file)
      if same_file.length = 1 then same_file.head?
      else if 1 < same_file.length then
        if source_parent ≠ "" then
          match same_file.find? (fun s =>
              s.qualified_name.startsWith (source_parent ++ "::")
              || s.qualified_name.startsWith (source_parent ++ ".")) with
          | some s => some s
          | none => same_file.head?
        else same_file.head?
      else
        let same_dir := candidates.filter
          (fun s => posixDirname s.file_path == sourceDirOf source_file)
        if ¬ same_dir.isEmpty then
          let exported := same_dir.filter (fun s => s.is_exported)
          if ¬ exported.isEmpty then exported.head? else same_dir.head?
        else
          let viaImport : Option Sym :=
            match alistLookup impMapArg (source_file, name) with
            | some imp_path =>
                if imp_path ≠ "" then
                  let import_matched := matchImportPath imp_path candidates
                  if ¬ import_matched.isEmpty then
                    let exported := import_matched.filter (fun s => s.is_exported)
                    if ¬ exported.isEmpty then exported.head? else import_matched.head?
                  else none
                else none
            | none => none
          match viaImport with
          | some s => some s
          | none =>
            let exported := candidates.filter (fun s => s.is_exported)
            if ¬ exported.isEmpty then exported.head? else candidates.head?

/-! ## `_closest_symbol` (lines 298–328 of `relations.py`) -/

def closestSymbol (source_file : String) (ref_line : Option Nat)
    (fileSyms : SymTbl) : Option Sym :=
  match alistLookup fileSyms source_file with
  | none => none
  | some [] => none
  | some (s0 :: srest) =>
    match ref_line with
    | none => some s0
    | some L =>
      let containing := (s0 :: srest).foldl
        (fun acc sym =>
          if sym.line_start ≤ L ∧ L ≤ sym.line_end ∧ 0 < sym.line_end then some sym
          else acc)
        none
      match containing with
      | some c => some c
      | none => some s0

/-! ## `resolve_references` (lines 6–137 of `relations.py`) -/

/-- Parent-context extraction, lines 73–80. -/
def sourceParent (src_qn : String) : String :=
  if strHasSub src_qn "::" then rsplitBefore src_qn "::"
  else if strHasSub src_qn "." then rsplitBefore src_qn "."
  else ""

structure Maps where
  qn : SymTbl
  imp : List ((String × String) × String)
  fileSyms : SymTbl

def buildMaps (refs : List Ref) (tbl : SymTbl) : Maps :=
  ⟨buildQualified tbl, buildImportMap refs, buildFileSymbols tbl⟩

def edgeKey (e : Edge) : Nat × Nat × String := (e.source_id, e.target_id, e.kind)

/-- Source-symbol resolution, lines 64–71: declared-name lookup with a
line-containment fallback. -/
def findSource (m : Maps) (tbl : SymTbl) (r : Ref) : Option Sym :=
  match bestMatch r.source_name r.source_file tbl "" "" [] with
  | some s => some s
  | none => closestSymbol r.source_file r.line m.fileSyms

/-- Target-symbol resolution, lines 82–114: qualified-name exact match,
local-preference override, then best-match by simple name. -/
def findTarget (m : Maps) (tbl : SymTbl) (r : Ref) (source_parent : String) :
    Option Sym :=
  let qn_matches := lookupSyms m.qn r.target_name
  let t1 : Option Sym :=
    if qn_matches.length = 1 then qn_matches.head?
    else if 1 < qn_matches.length then
      bestMatch r.target_name r.source_file tbl r.kind source_parent m.imp
    else none
  let t2 : Option Sym :=
    match t1 with
    | none => none
    | some ts =>
      if ts.file_path ≠ r.source_file then
        let candidates := lookupSyms tbl r.target_name
        match candidates.find? (fun c => c.file_path == r.source_file) with
        | some c => some c
        | none =>
          let source_dir := sourceDirOf r.source_file
          if source_dir ≠ "" ∧ posixDirname ts.file_path ≠ source_dir then
            match candidates.find? (fun c => posixDirname c.file_path == source_dir) with
            | some c => some c
            | none => some ts
          else some ts
      else some ts
  match t2 with
  | some t => some t
  | none => bestMatch r.target_name r.source_file tbl r.kind source_parent m.imp

/-- One iteration of the main loop (lines 54–135): the accumulator is
the emitted edge list plus the `seen` key set (modelled as a list). -/
def resolveStep (m : Maps) (tbl : SymTbl)
    (acc : List Edge × List (Nat × Nat × String)) (r : Ref) :
    List Edge × List (Nat × Nat × String) :=
  if r.target_name = "" then acc
  else
    match findSource m tbl r with
    | none => acc
    | some src =>
      let sp := sourceParent src.qualified_name
      match findTarget m tbl r sp with
      | none => acc
      | some tgt =>
        if src.id = tgt.id then acc
        else if (src.id, tgt.id, r.kind) ∈ acc.2 then acc
        else (acc.1 ++ [⟨src.id, tgt.id, r.kind, r.line⟩], acc.2 ++ [(src.id, tgt.id, r.kind)])

/-- `resolve_references`.  The `files_by_path` argument is accepted but,
as in the source, never read. -/
def resolveReferences (refs : List Ref) (tbl : SymTbl)
    (_files_by_path : List (String × Nat)) : List Edge :=
  let m := buildMaps refs tbl
  (refs.foldl (resolveStep m tbl) ([], [])).1

/-! ## `build_file_edges` (lines 331–368 of `relations.py`) -/

structure FileEdge where
  source_file_id : Nat
  target_file_id : Nat
  kind : String
  symbol_count : Nat
deriving DecidableEq

/-- Increment the counter at `k`, appending a fresh entry when absent
(models `counts[key] = counts.get(key, 0) + 1` on an insertion-ordered
dict). -/
def bumpCount (m : List ((Nat × Nat) × Nat)) (k : Nat × Nat) :
    List ((Nat × Nat) × Nat) :=
  match m with
  | [] => [(k, 1)]
  | (k', c) :: rest => if k' = k then (k', c + 1) :: rest else (k', c) :: bumpCount rest k

def build_file_edges (symbol_edges : List Edge) (symbols : List (Nat × Sym)) :
    List FileEdge :=
  let counts := symbol_edges.foldl
    (fun m e =>
      match alistLookup symbols e.source_id, alistLookup symbols e.target_id with
      | some ss, some ts =>
          if ss.file_id = ts.file_id then m else bumpCount m (ss.file_id, ts.file_id)
      | _, _ => m)
    []
  counts.map (fun kc => ⟨kc.1.1, kc.1.2, "imports", kc.2⟩)

/-! ## `cycles.py`: `find_cycles`

The source calls `networkx.strongly_connected_components`.  The graph
is embedded as a node list plus an edge list, and the library call is
embedded as an executable SCC computation: mutual reachability, with
reachability obtained by saturating the successor step `nodes.length`
times.  A theorem below relates it to the relational transitive
closure, so nothing rests on the implementation. -/

structure Digraph where
  nodes : List Nat
  edges : List (Nat × Nat)

def succList (g : Digraph) (v : Nat) : List Nat :=
  (g.edges.filter (fun e => e.1 == v)).map (·.2)

def closeStep (g : Digraph) (s : List Nat) : List Nat :=
  (s ++ s.flatMap (succList g)).dedup

def iterClose (g : Digraph) : Nat → List Nat → List Nat
  | 0, s => s
  | n + 1, s => iterClose g n (closeStep g s)

def reachList (g : Digraph) (v : Nat) : List Nat :=
  iterClose g g.nodes.length [v]

def reachableB (g : Digraph) (u v : Nat) : Bool :=
  decide (v ∈ reachList g u)

/-- Strongly connected component of `v`: the nodes mutually reachable
with `v`. -/
def sccOf (g : Digraph) (v : Nat) : List Nat :=
  g.nodes.filter (fun u => reachableB g v u && reachableB g u v)

def sccAux (g : Digraph) : List Nat → List Nat → List (List Nat)
  | [], _ => []
  | v :: rest, covered =>
    if v ∈ covered then sccAux g rest covered
    else sccOf g v :: sccAux g rest (covered ++ sccOf g v)

def stronglyConnectedComponents (g : Digraph) : List (List Nat) :=
  sccAux g g.nodes []

/-- `find_cycles` (lines 10–25 of `cycles.py`): SCCs of at least
`min_size` members, each sorted ascending, the list sorted by size
descending (a stable sort, as `list.sort` is). -/
def find_cycles (g : Digraph) (min_size : Nat := 2) : List (List Nat) :=
  if g.nodes.length = 0 then []
  else
    pySort (fun a b => decide (b.length ≤ a.length))
      (((stronglyConnectedComponents g).filter (fun c => min_size ≤ c.length)).map
        (fun c => pySort (fun a b => decide (a ≤ b)) c))

/-- Specification-side edge relation of the graph. -/
def EdgeRel (g : Digraph) (u v : Nat) : Prop := (u, v) ∈ g.edges

/-- Specification-side reachability: the reflexive-transitive closure. -/
def Reaches (g : Digraph) : Nat → Nat → Prop :=
  Relation.ReflTransGen (EdgeRel g)

def InSameSCC (g : Digraph) (u v : Nat) : Prop :=
  Reaches g u v ∧ Reaches g v u

/-! ## `pathfinding.py`: `_ensure_weights`

Weights are rationals standing for the source's floats (`1.0`, `1.1`,
and the default `2`); only their order matters to Dijkstra. -/

def EDGE_WEIGHTS : List (String × Rat) :=
  [("call", 1), ("uses_trait", 1), ("implements", 1), ("inherits", 1),
   ("uses", 1), ("template", 1), ("import", 11 / 10)]

/-- Edge-data record of the in-memory graph: a `kind` tag (missing kind
is read as `""` by the source) and an optional precomputed weight. -/
structure GEdgeData where
  kind : String
  weight : Option Rat
deriving DecidableEq

/-- `_ensure_weights` on a single edge datum (lines 21–26 of
`pathfinding.py`): only edges without a weight get one, from
`_EDGE_WEIGHTS` with default 2. -/
def ensureWeight (d : GEdgeData) : GEdgeData :=
  match d.weight with
  | some _ => d
  | none => { d with weight := some ((alistLookup EDGE_WEIGHTS d.kind).getD 2) }

/-- `_ensure_weights` over all edge data of the graph, as run by both
`find_path` and `find_k_paths` before any shortest-path search. -/
def ensureWeights (es : List GEdgeData) : List GEdgeData :=
  es.map ensureWeight

/-! ## `javascript_lang.py`: Salesforce ESM import emission

`_extract_esm_import` first collects the module path and the imported
local names from the AST; the embedding starts after that collection,
at the reference-emission logic (lines 564–605), together with
`_resolve_salesforce_import_target` (lines 607–628).  Strings are
`List Char` here. -/

def sfPre : List Char := "@salesforce/".toList
def sfApex : List Char := "@salesforce/apex/".toList
def sfSchema : List Char := "@salesforce/schema/".toList
def sfLabel : List Char := "@salesforce/label/".toList
def sfMessageChannel : List Char := "@salesforce/messageChannel/".toList

def resolveSalesforceImportTarget (path : List Char) : Option (List Char) :=
  if ¬ headIs sfPre path then none
  else if headIs sfApex path then some (path.drop sfApex.length)
  else if headIs sfSchema path then some (path.drop sfSchema.length)
  else if headIs sfLabel path then
    let r := path.drop sfLabel.length
    some (if headIs ['c', '.'] r then r.drop 2 else r)
  else if headIs sfMessageChannel path then some (path.drop sfMessageChannel.length)
  else none

structure JsRef where
  target_name : List Char
  kind : List Char
  line : Nat
  source_name : List Char
  import_path : List Char
deriving DecidableEq

/-- Reference emission of `_extract_esm_import` given the import `path`
and the collected imported `names` (empty for a side-effect import).
`sf_target if sf_target else name` tests truthiness, hence the
empty-string cases. -/
def esmImportRefs (path : List Char) (names : List (List Char))
    (scope_name : List Char) (line : Nat) : List JsRef :=
  let sf_target := resolveSalesforceImportTarget path
  let edge_kind := if headIs sfApex path then "call".toList else "import".toList
  match names with
  | [] =>
    [⟨(match sf_target with
       | some t => if t.isEmpty then path else t
       | none => path),
      edge_kind, line, scope_name, path⟩]
  | _ :: _ =>
    names.flatMap (fun name =>
      let target := match sf_target with
        | some t => if t.isEmpty then name else t
        | none => name
      let base : JsRef := ⟨target, edge_kind, line, scope_name, path⟩
      match sf_target with
      | some t =>
        if edge_kind = "call".toList ∧ ¬ t.isEmpty ∧ t.contains '.' then
          [base, ⟨t.takeWhile (· ≠ '.'), "call".toList, line, scope_name, path⟩]
        else [base]
      | none => [base])

/-! ## `parser.py`: `_preprocess_vue` (lines 108–159)

The source decodes the file, splits it into lines, and runs
`re.finditer` with the pattern `<script(\s[^>]*)?>.*?</script>`
(DOTALL).  The scanner below implements exactly that pattern's
match semantics: a match starting at `p` requires `<script` at `p`
followed either directly by `>` or by one whitespace and the shortest
run to the next `>` (the greedy `[^>]*` cannot cross a `>`), and then
the lazy `.*?</script>` ends the match at the first `</script>`
after the opening tag.  `finditer` yields leftmost matches and resumes
after each match's end. -/

def scriptOpenPat : List Char := "<script".toList
def scriptClosePat : List Char := "</script>".toList

/-- ASCII whitespace, modelling the regex class `\s`. -/
def isPySpace (c : Char) : Bool :=
  c = ' ' || c = '\t' || c = '\n' || c = '\r' || c = '\x0b' || c = '\x0c'

/-- A regex match: start offset, offset just past the opening tag's `>`
(`match.start() + inner_text.index(">") + 1`), and the offset of the
closing `</script>` (`match.start() + inner_text.rfind("</script>")` —
the lazy `.*?` makes the final `</script>` the only one after the
opening tag, so `rfind` lands on it). -/
structure SMatch where
  mstart : Nat
  tagEnd : Nat
  closeStart : Nat
deriving DecidableEq

def openTagEndAt (s : List Char) (p : Nat) : Option Nat :=
  if headIs scriptOpenPat (s.drop p) then
    match s.drop (p + 7) with
    | '>' :: _ => some (p + 8)
    | c :: rest =>
        if isPySpace c then (findSub ['>'] rest).map (fun j => p + 8 + j + 1)
        else none
    | [] => none
  else none

def matchScriptAt (s : List Char) (p : Nat) : Option SMatch :=
  match openTagEndAt s p with
  | none => none
  | some te =>
    match findSub scriptClosePat (s.drop te) with
    | none => none
    | some j => some ⟨p, te, te + j⟩

def scanScripts (s : List Char) : Nat → Nat → List SMatch
  | 0, _ => []
  | fuel + 1, p =>
    if p ≤ s.length then
      match matchScriptAt s p with
      | some m => m :: scanScripts s fuel (m.closeStart + scriptClosePat.length)
      | none => scanScripts s fuel (p + 1)
    else []

/-- All `<script ...>...</script>` matches, in order. -/
def vueScriptMatches (s : List Char) : List SMatch :=
  scanScripts s (s.length + 1) 0

def countNl (cs : List Char) : Nat := cs.count '\n'

/-- Python slice `s[a:b]`. -/
def seg (s : List Char) (a b : Nat) : List Char := (s.take b).drop a

/-- `content_start = block_start + opening_lines + 1`. -/
def contentStartLine (s : List Char) (m : SMatch) : Nat :=
  countNl (s.take m.mstart) + countNl (seg s m.mstart m.tagEnd) + 1

/-- `content_end = block_start + closing_lines`. -/
def contentEndLine (s : List Char) (m : SMatch) : Nat :=
  countNl (s.take m.mstart) + countNl (seg s m.mstart m.closeStart)

/-- Set indices in `[a, b)` to `true` (the source's
`for i in range(content_start, min(content_end, len(lines)))` loop). -/
def setTrueRange : List Bool → Nat → Nat → List Bool
  | [], _, _ => []
  | f :: rest, a, b =>
    (if a = 0 ∧ 0 < b then true else f) :: setTrueRange rest (a - 1) (b - 1)

def scriptLineFlags (s : List Char) (numLines : Nat) (ms : List SMatch) : List Bool :=
  ms.foldl
    (fun flags m =>
      setTrueRange flags (contentStartLine s m) (min (contentEndLine s m) numLines))
    (List.replicate numLines false)

/-- `text.split("\n")`. -/
def splitNl : List Char → List (List Char)
  | [] => [[]]
  | c :: rest =>
    match splitNl rest with
    | [] => [[c]]
    | h :: t => if c = '\n' then [] :: h :: t else (c :: h) :: t

/-- `"\n".join(...)`. -/
def joinNl : List (List Char) → List Char
  | [] => []
  | [l] => l
  | l :: ls => l ++ '\n' :: joinNl ls

/-- Keep flagged lines, blank the rest (lines 149–155 of the source). -/
def outputLines : List (List Char) → List Bool → List (List Char)
  | [], _ => []
  | _, [] => []
  | l :: ls, f :: fs => (if f then l else []) :: outputLines ls fs

/-- `match.group(1) or ""`: the `(\s[^>]*)?` attribute text, which is
the span between `<script` and the opening tag's `>`. -/
def attrsOf (s : List Char) (m : SMatch) : List Char :=
  seg s (m.mstart + 7) (m.tagEnd - 1)

def langTsDq : List Char := "lang=\"ts\"".toList
def langTsSq : List Char := "lang='ts'".toList
def langTsxDq : List Char := "lang=\"tsx\"".toList

def subMem (s pat : List Char) : Bool := (findSub pat s).isSome

def tsAttrs (a : List Char) : Bool :=
  subMem a langTsDq || subMem a langTsSq || subMem a langTsxDq

/-- The `effective_lang` accumulation over the matches. -/
def effectiveLangOf (s : List Char) (ms : List SMatch) : List Char :=
  ms.foldl
    (fun lang m => if tsAttrs (attrsOf s m) then "typescript".toList else lang)
    "javascript".toList

/-- `_preprocess_vue`: the processed buffer and the effective language. -/
def preprocessVue (s : List Char) : List Char × List Char :=
  let lines := splitNl s
  let ms := vueScriptMatches s
  let flags := scriptLineFlags s lines.length ms
  (joinNl (outputLines lines flags), effectiveLangOf s ms)

/-! ## `clusters.py`: `label_clusters` (lines 39–148)

The SQLite connection only supplies, per symbol id, its file path and
its (name, kind, pagerank) row; those query results are taken as
association-list inputs.  PageRank floats are rationals; the `:.0f`
format is float rounding to an integer, i.e. round-half-to-even. -/

structure ClusterSymInfo where
  name : String
  kind : String
  pagerank : Rat
deriving DecidableEq

def ANCHOR_KINDS : List String :=
  ["class", "struct", "interface", "enum", "trait", "module"]

def counterAdd (m : List (String × Nat)) (k : String) : List (String × Nat) :=
  match m with
  | [] => [(k, 1)]
  | (k', c) :: rest => if k' = k then (k', c + 1) :: rest else (k', c) :: counterAdd rest k

/-- `collections.Counter` of a list, in first-encounter order. -/
def counterOf (l : List String) : List (String × Nat) := l.foldl counterAdd []

/-- `Counter.most_common`: by count descending, ties in encounter order
(a stable sort, as documented for `heapq.nlargest`/`sorted`). -/
def mostCommon (m : List (String × Nat)) : List (String × Nat) :=
  pySort (fun a b => decide (b.2 ≤ a.2)) m

/-- `d.rstrip("/").rsplit("/", 1)[-1]`. -/
def shortDirOf (d : String) : String :=
  String.mk ((rstripSlash d.toList).reverse.takeWhile (· ≠ '/') |>.reverse)

def groupsAdd (m : List (Nat × List Nat)) (cid node : Nat) : List (Nat × List Nat) :=
  match m with
  | [] => [(cid, [node])]
  | (k, v) :: rest =>
      if k = cid then (k, v ++ [node]) :: rest else (k, v) :: groupsAdd rest cid node

/-- `groups[cid].append(node_id)` over `clusters.items()`. -/
def buildGroups (clusters : List (Nat × Nat)) : List (Nat × List Nat) :=
  clusters.foldl (fun m nc => groupsAdd m nc.2 nc.1) []

/-- Round-half-to-even of the exact rational `n / d` (for `d ≠ 0`):
the rounding `format(pct, ".0f")` applies, written with integer
arithmetic so it evaluates in the kernel. -/
def roundHalfEvenDiv (n d : Nat) : Nat :=
  let q := n / d
  let r := n % d
  if 2 * r < d then q
  else if d < 2 * r then q + 1
  else if q % 2 = 0 then q else q + 1

/-- `c * 100 / len(members) if members else 0`, rounded as `:.0f`
does. -/
def pctOf (c membersLen : Nat) : Nat :=
  if membersLen ≠ 0 then roundHalfEvenDiv (c * 100) membersLen else 0

/-- One `"{d_short} {pct:.0f}%"` piece of the directory-distribution label. -/
def megaPart (membersLen : Nat) (dc : String × Nat) : String :=
  let d_short := if dc.1 ≠ "" then shortDirOf dc.1 else "."
  d_short ++ " " ++ toString (pctOf dc.2 membersLen) ++ "%"

/-- The `is_mega` test: `len(members) > 100 or (total_nodes > 0 and
len(members) > total_nodes * 0.4)`; over exact rationals,
`len > total * 2/5` is `2 * total < 5 * len`. -/
def isMegaCluster (totalNodes membersLen : Nat) : Prop :=
  100 < membersLen ∨ (0 < totalNodes ∧ 2 * totalNodes < 5 * membersLen)

instance (t m : Nat) : Decidable (isMegaCluster t m) := by
  unfold isMegaCluster; infer_instance

/-- The directory multiset of a cluster:
`os.path.dirname(path).replace("\\", "/")` per member that has a path. -/
def clusterDirs (members : List Nat) (id_to_path : List (Nat × String)) : List String :=
  (members.filterMap (fun m => alistLookup id_to_path m)).map
    (fun p => replBackslash (posixDirname p))

/-- The directory-distribution label of the mega branch (lines 101–109). -/
def megaLabel (members : List Nat) (id_to_path : List (Nat × String)) : String :=
  let dir_counts := counterOf (clusterDirs members id_to_path)
  let top_dirs := (mostCommon dir_counts).take 3
  String.intercalate " + " (top_dirs.map (megaPart members.length))

/-- The per-community body of the `for cid, members in groups.items()`
loop of `label_clusters`. -/
def labelForCluster (total_nodes cid : Nat) (members : List Nat)
    (id_to_path : List (Nat × String)) (id_to_info : List (Nat × ClusterSymInfo)) :
    String :=
  let dirs := clusterDirs members id_to_path
  let dir_counts := counterOf dirs
  let most_common_dir := match (mostCommon dir_counts).head? with
    | some dc => dc.1
    | none => ""
  let short_dir := if most_common_dir ≠ "" then shortDirOf most_common_dir else ""
  if isMegaCluster total_nodes members.length ∧ 1 < dir_counts.length then
    megaLabel members id_to_path
  else
    let best1 := members.foldl
      (fun best m =>
        match alistLookup id_to_info m with
        | some info =>
            if info.kind ∈ ANCHOR_KINDS ∧ best.2 < info.pagerank then
              (some info.name, info.pagerank)
            else best
        | none => best)
      ((none : Option String), (-1 : Rat))
    let best2 :=
      if best1.1 = none then
        members.foldl
          (fun best m =>
            match alistLookup id_to_info m with
            | some info =>
                if best.2 < info.pagerank then (some info.name, info.pagerank) else best
            | none => best)
          ((none : Option String), (-1 : Rat))
      else best1
    let best_name :=
      match best2.1 with
      | some n => some n
      | none =>
        let stems := members.filterMap (fun m =>
          match alistLookup id_to_info m with
          | some info => if info.kind ∈ ANCHOR_KINDS then some info.name else none
          | none => none)
        let stems :=
          if stems.isEmpty then
            members.filterMap (fun m =>
              (alistLookup id_to_info m).map (fun i : ClusterSymInfo => i.name))
          else stems
        match (mostCommon (counterOf stems)).head? with
        | some nc => some nc.1
        | none => none
    let bn := best_name.getD ""
    if bn ≠ "" ∧ short_dir ≠ "" then short_dir ++ "/" ++ bn
    else if bn ≠ "" then bn
    else if short_dir ≠ "" then short_dir
    else "cluster-" ++ toString cid

/-- `label_clusters`. -/
def labelClusters (clusters : List (Nat × Nat)) (id_to_path : List (Nat × String))
    (id_to_info : List (Nat × ClusterSymInfo)) : List (Nat × String) :=
  if clusters.isEmpty then []
  else
    let groups := buildGroups clusters
    let total_nodes := clusters.length
    groups.map (fun g => (g.1, labelForCluster total_nodes g.1 g.2 id_to_path id_to_info))

/-! ## Specification-side predicates -/

/-- A reference that `resolve_references` skips: empty target name, a
target name naming no symbol (neither as simple nor as qualified name),
or an unresolvable source (unknown source name and a source file
containing no symbols). -/
def BadRef (tbl : SymTbl) (r : Ref) : Prop :=
  r.target_name = "" ∨
  (lookupSyms tbl r.target_name = [] ∧ ∀ s ∈ allSyms tbl, s.qualified_name ≠ r.target_name) ∨
  (lookupSyms tbl r.source_name = [] ∧ ∀ s ∈ allSyms tbl, s.file_path ≠ r.source_file)

/-- Does symbol edge `e` run from file `st.1` to a different file `st.2`
under the id → symbol map? -/
def crossB (symbols : List (Nat × Sym)) (st : Nat × Nat) (e : Edge) : Bool :=
  match alistLookup symbols e.source_id, alistLookup symbols e.target_id with
  | some ss, some ts => ss.file_id == st.1 && ts.file_id == st.2 && st.1 != st.2
  | _, _ => false

/-- The containment test of `_closest_symbol`:
`ls <= ref_line and le >= ref_line and le > 0`. -/
def containsLn (a : Sym) (L : Nat) : Prop :=
  a.line_start ≤ L ∧ L ≤ a.line_end ∧ 0 < a.line_end

instance (a : Sym) (L : Nat) : Decidable (containsLn a L) := by
  unfold containsLn; infer_instance

/-- The 0-based line index on which byte offset `p` of `s` falls. -/
def lineOfPos (s : List Char) (p : Nat) : Nat := countNl (s.take p)

/-! ## Concrete instances used by counterexamples and witnesses -/

/-- Counterexample data for the qualified-name claim: `cexS1` is the
unique symbol with qualified name `"f"`, but it lives in `a.py` while
the reference comes from `b.py`, where `cexS2` shares the simple name. -/
def cexS0 : Sym := ⟨0, "src", "src", "function", "b.py", 0, 1, 10, false⟩

def cexS1 : Sym := ⟨1, "f", "f", "function", "a.py", 1, 1, 5, false⟩

def cexS2 : Sym := ⟨2, "f", "g", "function", "b.py", 0, 20, 25, false⟩

def cexC2Tbl : SymTbl := [("src", [cexS0]), ("f", [cexS1, cexS2])]

def cexC2Ref : Ref := ⟨"src", "f", "call", some 5, "b.py", ""⟩

/-- Counterexample data for the line-containment claim: two symbols of
`m.py` share `line_start = 1`; the strictly inner one (`cexT1`) is
listed first, so the stable sort keeps it first and the
last-containing-wins loop picks the outer `cexT2`. -/
def cexT1 : Sym := ⟨1, "inner", "inner", "function", "m.py", 0, 1, 5, false⟩

def cexT2 : Sym := ⟨2, "outer", "outer", "function", "m.py", 0, 1, 10, false⟩

def cexC4Tbl : SymTbl := [("inner", [cexT1]), ("outer", [cexT2])]

/-- Witness data for the line-containment claim: properly nested
symbols with distinct start lines. -/
def witW1 : Sym := ⟨1, "inner", "inner", "function", "w.py", 0, 2, 4, false⟩

def witW2 : Sym := ⟨2, "outer", "outer", "function", "w.py", 0, 1, 10, false⟩

def witC4Tbl : SymTbl := [("inner", [witW1]), ("outer", [witW2])]

/-- Counterexample data for the cluster-label claim: cluster 0 has two
of three graphed symbols (67 % > 40 %), but both live in directory
`a`, so the single-directory guard keeps the anchor label. -/
def cexC7Clusters : List (Nat × Nat) := [(1, 0), (2, 0), (3, 1)]

def cexC7Paths : List (Nat × String) := [(1, "a/x.py"), (2, "a/y.py"), (3, "b/z.py")]

def cexC7Infos : List (Nat × ClusterSymInfo) :=
  [(1, ⟨"C", "class", 1⟩), (2, ⟨"g", "function", 2⟩), (3, ⟨"h", "function", 1⟩)]

/-- Witness data for the cluster-label claim: cluster 0 has three of
four graphed symbols (75 % > 40 %) spread over directories `a` and `b`. -/
def witC7Clusters : List (Nat × Nat) := [(1, 0), (2, 0), (3, 0), (4, 1)]

def witC7Paths : List (Nat × String) :=
  [(1, "a/x.py"), (2, "b/y.py"), (3, "b/q.py"), (4, "c/z.py")]

def witC7Infos : List (Nat × ClusterSymInfo) :=
  [(1, ⟨"C", "class", 1⟩), (2, ⟨"g", "function", 2⟩), (3, ⟨"h", "function", 1⟩),
   (4, ⟨"k", "function", 1⟩)]

/-- Counterexample source for the SFC language claim: the script tag
carries `lang="tsx"`, not `lang="ts"`. -/
def cexVueTsx : List Char := "<script lang=\"tsx\">\nx\n</script>".toList

/-- Witness source for the SFC preprocessing claim. -/
def witVueSrc : List Char :=
  "<template>\n  <div>{{ x }}</div>\n</template>\n<script lang=\"ts\">\nlet x = 1\nlet y = 2\n</script>\n<style>\n.a {}\n</style>".toList

/-- Witness graph for the cycle claim: a three-node cycle. -/
def witCycleGraph : Digraph := ⟨[1, 2, 3], [(1, 2), (2, 3), (3, 1)]⟩

/-! # Helper lemmas -/

theorem alistLookup_mem {κ β : Type} [DecidableEq κ] {l : List (κ × β)} {k : κ} {v : β}
    (h : alistLookup l k = some v) : (k, v) ∈ l := by
  induction l with
  | nil => simp [alistLookup] at h
  | cons kv rest ih =>
    obtain ⟨k', v'⟩ := kv
    simp only [alistLookup] at h
    split at h
    · rename_i hk
      obtain rfl := Option.some.injEq .. ▸ h
      subst hk
      exact List.mem_cons_self _ _
    · exact List.mem_cons_of_mem _ (ih h)

theorem alistLookup_eq_none {κ β : Type} [DecidableEq κ] {l : List (κ × β)} {k : κ} :
    alistLookup l k = none ↔ k ∉ l.map Prod.fst := by
  induction l with
  | nil => simp [alistLookup]
  | cons kv rest ih =>
    obtain ⟨k', v'⟩ := kv
    by_cases hk : k' = k
    · subst hk
      simp [alistLookup]
    · simp only [alistLookup, if_neg hk, List.map_cons, List.mem_cons]
      rw [ih]
      constructor
      · intro h hor
        rcases hor with h1 | h1
        · exact hk h1.symm
        · exact h h1
      · intro h h1
        exact h (Or.inr h1)

theorem alistLookup_of_mem_nodup {κ β : Type} [DecidableEq κ] {l : List (κ × β)} {k : κ} {v : β}
    (hn : (l.map Prod.fst).Nodup) (hm : (k, v) ∈ l) : alistLookup l k = some v := by
  induction l with
  | nil => simp at hm
  | cons kv rest ih =>
    obtain ⟨k', v'⟩ := kv
    simp only [List.map_cons, List.nodup_cons] at hn
    rcases List.mem_cons.mp hm with h | h
    · obtain ⟨rfl, rfl⟩ := Prod.mk.injEq .. ▸ h
      simp [alistLookup]
    · have hk : k' ≠ k := by
        rintro rfl
        exact hn.1 (List.mem_map.mpr ⟨(k', v), h, rfl⟩)
      simp only [alistLookup, if_neg hk]
      exact ih hn.2 h

theorem head?_mem {α : Type} {l : List α} {a : α} (h : l.head? = some a) : a ∈ l := by
  cases l <;> simp_all

theorem find?_split {α : Type} {p : α → Bool} {l : List α} {c : α}
    (h : l.find? p = some c) :
    ∃ l1 l2, l = l1 ++ c :: l2 ∧ (∀ x ∈ l1, ¬ p x) ∧ p c := by
  induction l with
  | nil => simp at h
  | cons a rest ih =>
    by_cases hpa : p a
    · rw [List.find?_cons_of_pos _ hpa] at h
      obtain rfl := Option.some.injEq .. ▸ h
      exact ⟨[], rest, by simp, by simp, hpa⟩
    · rw [List.find?_cons_of_neg _ hpa] at h
      obtain ⟨l1, l2, rfl, hl1, hc⟩ := ih h
      exact ⟨a :: l1, l2, by simp, by simpa [hpa] using hl1, hc⟩

theorem pyInsertSorted_perm {α : Type} (le : α → α → Bool) (x : α) (l : List α) :
    (pyInsertSorted le x l).Perm (x :: l) := by
  induction l with
  | nil => exact List.Perm.refl _
  | cons y ys ih =>
    by_cases h : le x y = true
    · rw [pyInsertSorted, if_pos h]
    · rw [pyInsertSorted, if_neg h]
      exact (ih.cons y).trans (List.Perm.swap x y ys)

theorem pySort_perm {α : Type} (le : α → α → Bool) (l : List α) :
    (pySort le l).Perm l := by
  induction l with
  | nil => exact List.Perm.refl _
  | cons x xs ih => exact (pyInsertSorted_perm le x _).trans (ih.cons x)

theorem mem_pySort {α : Type} {le : α → α → Bool} {l : List α} {a : α} :
    a ∈ pySort le l ↔ a ∈ l :=
  (pySort_perm le l).mem_iff

theorem length_pySort {α : Type} (le : α → α → Bool) (l : List α) :
    (pySort le l).length = l.length :=
  (pySort_perm le l).length_eq

theorem pairwise_pyInsertSorted {α : Type} {le : α → α → Bool}
    (htrans : ∀ a b c, le a b = true → le b c = true → le a c = true)
    (htotal : ∀ a b, le a b = true ∨ le b a = true)
    (x : α) (l : List α) (h : l.Pairwise (fun a b => le a b = true)) :
    (pyInsertSorted le x l).Pairwise (fun a b => le a b = true) := by
  induction l with
  | nil => simp [pyInsertSorted]
  | cons y ys ih =>
    rw [List.pairwise_cons] at h
    by_cases hxy : le x y = true
    · rw [pyInsertSorted, if_pos hxy]
      refine List.pairwise_cons.mpr ⟨?_, List.pairwise_cons.mpr h⟩
      intro z hz
      rcases List.mem_cons.mp hz with rfl | hz
      · exact hxy
      · exact htrans x y z hxy (h.1 z hz)
    · rw [pyInsertSorted, if_neg hxy]
      have hyx : le y x = true := (htotal x y).resolve_left hxy
      refine List.pairwise_cons.mpr ⟨?_, ih h.2⟩
      intro z hz
      rcases List.mem_cons.mp ((pyInsertSorted_perm le x ys).mem_iff.mp hz) with rfl | hz'
      · exact hyx
      · exact h.1 z hz'

theorem pairwise_pySort {α : Type} {le : α → α → Bool}
    (htrans : ∀ a b c, le a b = true → le b c = true → le a c = true)
    (htotal : ∀ a b, le a b = true ∨ le b a = true) (l : List α) :
    (pySort le l).Pairwise (fun a b => le a b = true) := by
  induction l with
  | nil => simp [pySort]
  | cons x xs ih => exact pairwise_pyInsertSorted htrans htotal x _ ih

/-- The last-satisfying-element fold (as in `_closest_symbol`) is
`find?` on the reversed list. -/
theorem foldl_lastSat {α : Type} (P : α → Prop) [DecidablePred P] :
    ∀ (l : List α) (init : Option α),
      l.foldl (fun acc x => if P x then some x else acc) init =
        ((l.reverse.find? (fun x => decide (P x))).rec init some) := by
  intro l
  induction l with
  | nil => intro init; simp
  | cons a rest ih =>
    intro init
    simp only [List.foldl_cons, List.reverse_cons, ih, List.find?_append]
    cases hfr : rest.reverse.find? (fun x => decide (P x)) with
    | some c => simp [Option.or]
    | none =>
      by_cases hpa : P a <;> simp [List.find?, hpa, Option.or]

/-! # C10 — default edge weight penalizes unlisted kinds -/

/-- C10: in the weighting `find_path` and `find_k_paths` apply via
`_ensure_weights`, an edge whose kind is not one of the listed
call-like/import kinds and has no preset weight gets weight 2, and 2 is
strictly greater than every listed weight (1 and 11/10). -/
theorem unlisted_kind_weight (kind : String)
    (h : kind ∉ ["call", "uses_trait", "implements", "inherits", "uses", "template", "import"]) :
    (∀ d : GEdgeData, d.kind = kind → d.weight = none →
      (ensureWeight d).weight = some 2 ∧ ∀ es, d ∈ es → ensureWeight d ∈ ensureWeights es) ∧
      (∀ p ∈ EDGE_WEIGHTS, p.2 < 2) := by
  constructor
  · rintro ⟨dk, dw⟩ hk hw
    simp only at hk hw
    subst hk
    subst hw
    constructor
    · simp only [List.mem_cons, not_or] at h
      obtain ⟨h1, h2, h3, h4, h5, h6, h7, -⟩ := h
      simp [ensureWeight, EDGE_WEIGHTS, alistLookup,
        Ne.symm h1, Ne.symm h2, Ne.symm h3, Ne.symm h4, Ne.symm h5, Ne.symm h6, Ne.symm h7]
    · intro es hes
      exact List.mem_map.mpr ⟨_, hes, rfl⟩
  · intro p hp
    simp only [EDGE_WEIGHTS, List.mem_cons, List.not_mem_nil, or_false] at hp
    rcases hp with rfl | rfl | rfl | rfl | rfl | rfl | rfl <;> norm_num

/-- Witness: the kind `"reference"` gets the default weight 2. -/
theorem unlisted_kind_weight_witness :
    (ensureWeight ⟨"reference", none⟩).weight = some 2 ∧
      ensureWeight ⟨"reference", none⟩ ∈ ensureWeights [⟨"reference", none⟩] ∧
      ∀ p ∈ EDGE_WEIGHTS, p.2 < 2 := by
  have h := unlisted_kind_weight "reference" (by decide)
  have h1 := h.1 ⟨"reference", none⟩ rfl rfl
  exact ⟨h1.1, h1.2 _ (List.mem_singleton.mpr rfl), h.2⟩

/-! # C3 — Salesforce apex imports emit two call references -/

theorem headIs_append_self (p r : List Char) : headIs p (p ++ r) = true := by
  induction p with
  | nil => rfl
  | cons c cs ih => simp [headIs, ih]

theorem takeWhile_append_stop (cls meth : List Char) (h : '.' ∉ cls) :
    (cls ++ '.' :: meth).takeWhile (fun x => !decide (x = '.')) = cls := by
  induction cls with
  | nil => simp [List.takeWhile]
  | cons c cs ih =>
    have hc : c ≠ '.' := fun e => h (e ▸ List.mem_cons_self c cs)
    simp only [List.cons_append, List.takeWhile_cons, hc, decide_False, Bool.not_false,
      if_true]
    rw [ih (fun hm => h (List.mem_cons_of_mem _ hm))]

/-- C3: an ESM default import of the module path
`@salesforce/apex/Class.method` emits exactly two call-kind references —
targets `Class.method` and `Class`, both carrying the import path — and
any non-apex module path under `@salesforce/` emits only references of
kind "import". -/
theorem apex_import_two_call_refs :
    (∀ (x cls meth scope : List Char) (line : Nat), '.' ∉ cls →
      esmImportRefs (sfApex ++ (cls ++ '.' :: meth)) [x] scope line =
        [⟨cls ++ '.' :: meth, "call".toList, line, scope, sfApex ++ (cls ++ '.' :: meth)⟩,
         ⟨cls, "call".toList, line, scope, sfApex ++ (cls ++ '.' :: meth)⟩]) ∧
    (∀ (path : List Char) (names : List (List Char)) (scope : List Char) (line : Nat),
      headIs sfPre path = true → headIs sfApex path = false →
      ∀ r ∈ esmImportRefs path names scope line, r.kind = "import".toList) := by
  constructor
  · intro x cls meth scope line hdot
    have hpre : headIs sfPre (sfApex ++ (cls ++ '.' :: meth)) = true := by
      have : sfApex = sfPre ++ "apex/".toList := by decide
      rw [this, List.append_assoc]
      exact headIs_append_self _ _
    have hapex : headIs sfApex (sfApex ++ (cls ++ '.' :: meth)) = true :=
      headIs_append_self _ _
    have hdrop : (sfApex ++ (cls ++ '.' :: meth)).drop sfApex.length = cls ++ '.' :: meth :=
      List.drop_left _ _
    have htgt : resolveSalesforceImportTarget (sfApex ++ (cls ++ '.' :: meth)) =
        some (cls ++ '.' :: meth) := by
      simp [resolveSalesforceImportTarget, hpre, hapex, hdrop]
    have hne : (cls ++ '.' :: meth).isEmpty = false := by
      simp [List.isEmpty_iff]
    have hcontains : (cls ++ '.' :: meth).contains '.' = true := by
      simp [List.contains, List.elem_iff]
    simp [esmImportRefs, htgt, hapex, hne, hcontains, takeWhile_append_stop cls meth hdot]
  · intro path names scope line hpre hapex r hr
    have hkind : (if headIs sfApex path = true then "call".toList else "import".toList) =
        "import".toList := by simp [hapex]
    rcases names with - | ⟨n, ns⟩
    · simp only [esmImportRefs, hapex, Bool.false_eq_true, if_false, List.mem_singleton] at hr
      subst hr
      rfl
    · simp only [esmImportRefs, hapex, Bool.false_eq_true, if_false, List.mem_flatMap] at hr
      obtain ⟨name, -, hrin⟩ := hr
      cases htv : resolveSalesforceImportTarget path with
      | none =>
        simp only [htv, List.mem_singleton] at hrin
        subst hrin
        rfl
      | some t =>
        simp only [htv] at hrin
        have hcond : ¬(("import".toList : List Char) = "call".toList ∧
            ¬t.isEmpty = true ∧ t.contains '.' = true) :=
          fun hc => absurd hc.1 (by decide)
        rw [if_neg hcond] at hrin
        simp only [List.mem_singleton] at hrin
        subst hrin
        rfl

/-- Witness: the spec's own scenario — `CloudinaryService.uploadImage`. -/
theorem apex_import_two_call_refs_witness :
    esmImportRefs "@salesforce/apex/CloudinaryService.uploadImage".toList
        ["uploadImage".toList] "cloudinaryUpload".toList 3 =
      [⟨"CloudinaryService.uploadImage".toList, "call".toList, 3, "cloudinaryUpload".toList,
        "@salesforce/apex/CloudinaryService.uploadImage".toList⟩,
       ⟨"CloudinaryService".toList, "call".toList, 3, "cloudinaryUpload".toList,
        "@salesforce/apex/CloudinaryService.uploadImage".toList⟩] ∧
    (∀ r ∈ esmImportRefs "@salesforce/schema/Account.Name".toList ["ACC".toList]
        "x".toList 1, r.kind = "import".toList) := by
  constructor
  · have := apex_import_two_call_refs.1 "uploadImage".toList "CloudinaryService".toList
      "uploadImage".toList "cloudinaryUpload".toList 3 (by decide)
    exact this
  · exact apex_import_two_call_refs.2 "@salesforce/schema/Account.Name".toList
      ["ACC".toList] "x".toList 1 (by decide) (by decide)

/-! # C5 — file-edge aggregation -/

theorem bumpCount_lookup_same (m : List ((Nat × Nat) × Nat)) (k : Nat × Nat) :
    alistLookup (bumpCount m k) k = some ((alistLookup m k).getD 0 + 1) := by
  induction m with
  | nil => simp [bumpCount, alistLookup]
  | cons kv rest ih =>
    obtain ⟨k', c⟩ := kv
    by_cases hk : k' = k
    · subst hk
      simp [bumpCount, alistLookup]
    · simp [bumpCount, alistLookup, hk, ih]

theorem bumpCount_lookup_ne (m : List ((Nat × Nat) × Nat)) (k k' : Nat × Nat)
    (h : k' ≠ k) : alistLookup (bumpCount m k) k' = alistLookup m k' := by
  have h' : ¬(k = k') := fun e => h e.symm
  induction m with
  | nil => simp [bumpCount, alistLookup, h']
  | cons kv rest ih =>
    obtain ⟨k'', c⟩ := kv
    by_cases hk : k'' = k
    · subst hk
      simp [bumpCount, alistLookup, h']
    · simp [bumpCount, alistLookup, hk, ih]

theorem bumpCount_keys (m : List ((Nat × Nat) × Nat)) (k : Nat × Nat) :
    (bumpCount m k).map Prod.fst =
      if k ∈ m.map Prod.fst then m.map Prod.fst else m.map Prod.fst ++ [k] := by
  induction m with
  | nil => simp [bumpCount]
  | cons kv rest ih =>
    obtain ⟨k', c⟩ := kv
    by_cases hk : k' = k
    · subst hk
      simp [bumpCount]
    · have h' : ¬(k = k') := fun e => hk e.symm
      simp only [bumpCount, if_neg hk, List.map_cons, List.mem_cons, ih]
      by_cases hm : k ∈ rest.map Prod.fst
      · simp [hm, h']
      · simp [hm, h']

theorem bumpCount_nodup (m : List ((Nat × Nat) × Nat)) (k : Nat × Nat)
    (h : (m.map Prod.fst).Nodup) : ((bumpCount m k).map Prod.fst).Nodup := by
  rw [bumpCount_keys]
  split
  · exact h
  · rename_i hmem
    rw [List.nodup_append]
    exact ⟨h, List.nodup_singleton k, by simpa using hmem⟩

theorem crossB_ne {symbols : List (Nat × Sym)} {st : Nat × Nat} {e : Edge}
    (h : crossB symbols st e = true) : st.1 ≠ st.2 := by
  cases hs : alistLookup symbols e.source_id with
  | none => simp [crossB, hs] at h
  | some ss =>
    cases ht : alistLookup symbols e.target_id with
    | none => simp [crossB, hs, ht] at h
    | some ts =>
      simp only [crossB, hs, ht, Bool.and_eq_true, bne_iff_ne] at h
      exact h.2

/-- Invariant of the counting fold of `build_file_edges`. -/
theorem counts_fold_spec (symbols : List (Nat × Sym)) :
    ∀ (edges : List Edge) (m : List ((Nat × Nat) × Nat)),
      (m.map Prod.fst).Nodup →
      (((edges.foldl (fun m e =>
          match alistLookup symbols e.source_id, alistLookup symbols e.target_id with
          | some ss, some ts =>
              if ss.file_id = ts.file_id then m else bumpCount m (ss.file_id, ts.file_id)
          | _, _ => m) m).map Prod.fst).Nodup) ∧
      (∀ k, (alistLookup (edges.foldl (fun m e =>
          match alistLookup symbols e.source_id, alistLookup symbols e.target_id with
          | some ss, some ts =>
              if ss.file_id = ts.file_id then m else bumpCount m (ss.file_id, ts.file_id)
          | _, _ => m) m) k).getD 0 =
        (alistLookup m k).getD 0 + edges.countP (crossB symbols k)) ∧
      (∀ k, (alistLookup (edges.foldl (fun m e =>
          match alistLookup symbols e.source_id, alistLookup symbols e.target_id with
          | some ss, some ts =>
              if ss.file_id = ts.file_id then m else bumpCount m (ss.file_id, ts.file_id)
          | _, _ => m) m) k).isSome ↔
        ((alistLookup m k).isSome ∨ ∃ e ∈ edges, crossB symbols k e)) := by
  intro edges
  induction edges with
  | nil => intro m hm; simp [hm]
  | cons e es ih =>
    intro m hm
    simp only [List.foldl_cons]
    cases hs : alistLookup symbols e.source_id with
    | none =>
      have hcross : ∀ k, crossB symbols k e = false := fun k => by simp [crossB, hs]
      obtain ⟨h1, h2, h3⟩ := ih m hm
      refine ⟨h1, fun k => ?_, fun k => ?_⟩
      · rw [h2 k, List.countP_cons, hcross k]
        simp
      · rw [h3 k]
        simp [hcross]
    | some ss =>
      cases ht : alistLookup symbols e.target_id with
      | none =>
        have hcross : ∀ k, crossB symbols k e = false := fun k => by simp [crossB, hs, ht]
        obtain ⟨h1, h2, h3⟩ := ih m hm
        refine ⟨h1, fun k => ?_, fun k => ?_⟩
        · rw [h2 k, List.countP_cons, hcross k]
          simp
        · rw [h3 k]
          simp [hcross]
      | some ts =>
        by_cases hfid : ss.file_id = ts.file_id
        · have hcross : ∀ k, crossB symbols k e = false := fun k => by
            simp only [crossB, hs, ht]
            by_cases h1 : ss.file_id = k.1
            · by_cases h2 : ts.file_id = k.2
              · have : k.1 = k.2 := by rw [← h1, ← h2, hfid]
                simp [this, ← h1, ← h2, hfid]
              · simp [h2]
            · simp [h1]
          simp only [hs, ht, if_pos hfid]
          obtain ⟨h1, h2, h3⟩ := ih m hm
          refine ⟨h1, fun k => ?_, fun k => ?_⟩
          · rw [h2 k, List.countP_cons, hcross k]
            simp
          · rw [h3 k]
            simp [hcross]
        · have hcross : ∀ k, crossB symbols k e =
              decide (k = (ss.file_id, ts.file_id)) := fun k => by
            simp only [crossB, hs, ht]
            by_cases hk : k = (ss.file_id, ts.file_id)
            · subst hk
              simp [hfid]
            · have : ¬(ss.file_id = k.1 ∧ ts.file_id = k.2) := by
                rintro ⟨ha, hb⟩
                exact hk (Prod.ext ha.symm hb.symm)
              by_cases h1 : ss.file_id = k.1
              · have h2 : ¬ ts.file_id = k.2 := fun h2 => this ⟨h1, h2⟩
                simp [hk, h2]
              · simp [hk, h1]
          simp only [hs, ht, if_neg hfid]
          obtain ⟨h1, h2, h3⟩ := ih (bumpCount m (ss.file_id, ts.file_id))
            (bumpCount_nodup m _ hm)
          refine ⟨h1, fun k => ?_, fun k => ?_⟩
          · rw [h2 k, List.countP_cons, hcross k]
            by_cases hk : k = (ss.file_id, ts.file_id)
            · subst hk
              rw [bumpCount_lookup_same]
              simp only [Option.getD_some, decide_True, if_true]
              omega
            · rw [bumpCount_lookup_ne m _ k hk]
              simp [hk]
          · rw [h3 k]
            by_cases hk : k = (ss.file_id, ts.file_id)
            · subst hk
              rw [bumpCount_lookup_same]
              simp [hcross]
            · rw [bumpCount_lookup_ne m _ k hk]
              simp only [List.mem_cons]
              constructor
              · rintro (h | ⟨e', he', hc⟩)
                · exact Or.inl h
                · exact Or.inr ⟨e', Or.inr he', hc⟩
              · rintro (h | ⟨e', he' | he', hc⟩)
                · exact Or.inl h
                · subst he'
                  rw [hcross k] at hc
                  exact absurd (of_decide_eq_true hc) hk
                · exact Or.inr ⟨e', he', hc⟩

/-- C5: `build_file_edges` emits exactly one `FileEdge` per ordered pair
of distinct files that some symbol edge crosses; its `symbol_count` is
the number of symbol edges between those files, its kind `"imports"`,
and no same-file pair ever appears. -/
theorem build_file_edges_spec (symbol_edges : List Edge) (symbols : List (Nat × Sym)) :
    (∀ fe ∈ build_file_edges symbol_edges symbols,
      fe.kind = "imports" ∧ fe.source_file_id ≠ fe.target_file_id ∧
      fe.symbol_count =
        symbol_edges.countP (crossB symbols (fe.source_file_id, fe.target_file_id)) ∧
      0 < fe.symbol_count) ∧
    (∀ st : Nat × Nat, (∃ e ∈ symbol_edges, crossB symbols st e) →
      ∃ fe ∈ build_file_edges symbol_edges symbols,
        fe.source_file_id = st.1 ∧ fe.target_file_id = st.2) ∧
    ((build_file_edges symbol_edges symbols).map
      (fun fe => (fe.source_file_id, fe.target_file_id))).Nodup := by
  obtain ⟨hnodup, hcount, hsome⟩ :=
    counts_fold_spec symbols symbol_edges [] (by simp)
  refine ⟨?_, ?_, ?_⟩
  · intro fe hfe
    simp only [build_file_edges, List.mem_map] at hfe
    obtain ⟨⟨k, c⟩, hmem, rfl⟩ := hfe
    have hlk := alistLookup_of_mem_nodup hnodup hmem
    have hc : c = symbol_edges.countP (crossB symbols k) := by
      have := hcount k
      rw [hlk] at this
      simpa [alistLookup] using this
    have hex : ∃ e ∈ symbol_edges, crossB symbols k e := by
      have := (hsome k).mp (by simp [hlk])
      simpa [alistLookup] using this
    obtain ⟨e, he, hcr⟩ := hex
    refine ⟨rfl, crossB_ne hcr, by simpa using hc, ?_⟩
    simp only
    rw [hc]
    exact List.countP_pos_iff.mpr ⟨e, he, hcr⟩
  · rintro st ⟨e, he, hcr⟩
    have : (alistLookup (symbol_edges.foldl (fun m e =>
        match alistLookup symbols e.source_id, alistLookup symbols e.target_id with
        | some ss, some ts =>
            if ss.file_id = ts.file_id then m else bumpCount m (ss.file_id, ts.file_id)
        | _, _ => m) []) st).isSome := by
      rw [hsome st]
      exact Or.inr ⟨e, he, hcr⟩
    obtain ⟨c, hc⟩ := Option.isSome_iff_exists.mp this
    refine ⟨⟨st.1, st.2, "imports", c⟩, ?_, rfl, rfl⟩
    simp only [build_file_edges, List.mem_map]
    exact ⟨(st, c), alistLookup_mem hc, by simp⟩
  · simp only [build_file_edges]
    have : ∀ (l : List ((Nat × Nat) × Nat)),
        ((l.map (fun kc => (⟨kc.1.1, kc.1.2, "imports", kc.2⟩ : FileEdge))).map
          (fun fe => (fe.source_file_id, fe.target_file_id))) = l.map Prod.fst := by
      intro l
      induction l with
      | nil => rfl
      | cons kv rest ih => simp [ih]
    rw [this]
    exact hnodup

/-- Witness for C5 at a concrete edge list: two cross-file pairs, one
with two underlying symbol edges, the same-file edge dropped. -/
theorem build_file_edges_spec_witness :
    build_file_edges
        [⟨1, 2, "call", none⟩, ⟨1, 2, "import", none⟩, ⟨2, 1, "call", none⟩,
         ⟨1, 3, "call", none⟩]
        [(1, cexS0), (2, { cexS1 with file_id := 1 }), (3, cexS2)] =
      [⟨0, 1, "imports", 2⟩, ⟨1, 0, "imports", 1⟩] ∧
    (⟨0, 1, "imports", 2⟩ : FileEdge).symbol_count =
      List.countP (crossB [(1, cexS0), (2, { cexS1 with file_id := 1 }), (3, cexS2)] (0, 1))
        [⟨1, 2, "call", none⟩, ⟨1, 2, "import", none⟩, ⟨2, 1, "call", none⟩,
         ⟨1, 3, "call", none⟩] := by
  constructor
  · decide
  · have h := (build_file_edges_spec
      [⟨1, 2, "call", none⟩, ⟨1, 2, "import", none⟩, ⟨2, 1, "call", none⟩,
       ⟨1, 3, "call", none⟩]
      [(1, cexS0), (2, { cexS1 with file_id := 1 }), (3, cexS2)]).1
      ⟨0, 1, "imports", 2⟩ (by decide)
    exact h.2.2.1

/-! # C2 — unique qualified-name match as the edge target -/

/-- C2 counterexample: `cexS1` is the only symbol whose qualified name
is `"f"`, yet the emitted edge targets `cexS2` (id 2), because the
qualified match lives in `a.py` while a same-named symbol exists in the
reference's file `b.py`. -/
theorem qualified_unique_target_cex :
    lookupSyms (buildQualified cexC2Tbl) "f" = [cexS1] ∧
      cexS1.id = 1 ∧ cexS1.file_path = "a.py" ∧ cexC2Ref.target_name = "f" ∧
      cexC2Ref.source_file = "b.py" ∧
      resolveReferences [cexC2Ref] cexC2Tbl [] = [⟨0, 2, "call", some 5⟩] := by
  decide

/-- C2 amended: a reference whose target name matches exactly one
symbol by qualified name resolves to that symbol provided the match is
local enough — it lies in the reference's file, or no same-named
candidate lives in the reference's file and (the reference has no
directory, or the match already lies in that directory, or no
same-named candidate lies in that directory). -/
theorem qualified_unique_local_target (m : Maps) (tbl : SymTbl) (r : Ref)
    (sp : String) (s : Sym)
    (hq : lookupSyms m.qn r.target_name = [s])
    (hloc : s.file_path = r.source_file ∨
      ((∀ c ∈ lookupSyms tbl r.target_name, c.file_path ≠ r.source_file) ∧
        (sourceDirOf r.source_file = "" ∨
          posixDirname s.file_path = sourceDirOf r.source_file ∨
          ∀ c ∈ lookupSyms tbl r.target_name,
            posixDirname c.file_path ≠ sourceDirOf r.source_file))) :
    findTarget m tbl r sp = some s := by
  unfold findTarget
  rw [hq]
  simp only [show ([s].length = 1) = True from by simp, if_true, List.head?_cons]
  by_cases hfp : s.file_path = r.source_file
  · rw [if_neg (not_not_intro hfp)]
  · have hB := hloc.resolve_left hfp
    obtain ⟨hnofile, hdir⟩ := hB
    rw [if_pos hfp]
    have hfind1 : (lookupSyms tbl r.target_name).find?
        (fun c => c.file_path == r.source_file) = none := by
      rw [List.find?_eq_none]
      intro c hc
      simpa using hnofile c hc
    rw [hfind1]
    rcases hdir with hd | hd | hd
    · rw [if_neg (by rintro ⟨h1, -⟩; exact h1 hd)]
    · rw [if_neg (by rintro ⟨-, h2⟩; exact h2 hd)]
    · by_cases hcond : sourceDirOf r.source_file ≠ "" ∧
          posixDirname s.file_path ≠ sourceDirOf r.source_file
      · rw [if_pos hcond]
        have hfind2 : (lookupSyms tbl r.target_name).find?
            (fun c => posixDirname c.file_path == sourceDirOf r.source_file) = none := by
          rw [List.find?_eq_none]
          intro c hc
          simpa using hd c hc
        rw [hfind2]
      · rw [if_neg hcond]

/-- Witness: when the unique qualified match lies in the reference's
own file, it is the resolved target. -/
theorem qualified_unique_local_target_witness :
    findTarget (buildMaps [] cexC2Tbl) cexC2Tbl
        ⟨"src", "f", "call", some 5, "a.py", ""⟩ "" = some cexS1 :=
  qualified_unique_local_target _ _ _ _ _ (by decide) (Or.inl (by decide))

/-! # C4 — line-containment source fallback -/

/-- C4 counterexample: the file's symbol list (sorted by `line_start`)
is `[cexT1, cexT2]` with equal start lines; both contain line 3 and
`cexT1`'s interval is strictly inside `cexT2`'s, yet the code returns
the outer `cexT2` — not the innermost containing symbol. -/
theorem closest_symbol_tie_cex :
    lookupSyms (buildFileSymbols cexC4Tbl) "m.py" = [cexT1, cexT2] ∧
      closestSymbol "m.py" (some 3) (buildFileSymbols cexC4Tbl) = some cexT2 ∧
      containsLn cexT1 3 ∧ containsLn cexT2 3 ∧
      cexT1.line_start = cexT2.line_start ∧ cexT1.line_end < cexT2.line_end ∧
      cexT1 ≠ cexT2 := by
  decide

/-- C4 amended: with the file's symbols sorted by start line, the
fallback picks the last containing symbol — the innermost one whenever
the containing symbols are properly nested with pairwise distinct
start lines — and, when no symbol contains the line, the first symbol
of the file, regardless of which symbol ends nearest before the line. -/
theorem closest_symbol_resolution (sf : String) (L : Nat) (fs : SymTbl)
    (s0 : Sym) (srest : List Sym)
    (hlk : alistLookup fs sf = some (s0 :: srest))
    (hsorted : (s0 :: srest).Pairwise (fun a b => a.line_start ≤ b.line_start)) :
    ((∃ a ∈ s0 :: srest, containsLn a L) →
      (∀ a ∈ s0 :: srest, ∀ b ∈ s0 :: srest, containsLn a L → containsLn b L → a ≠ b →
        a.line_start ≠ b.line_start) →
      (∀ a ∈ s0 :: srest, ∀ b ∈ s0 :: srest, containsLn a L → containsLn b L →
        ((b.line_start ≤ a.line_start ∧ a.line_end ≤ b.line_end) ∨
          (a.line_start ≤ b.line_start ∧ b.line_end ≤ a.line_end))) →
      ∃ c, closestSymbol sf (some L) fs = some c ∧ c ∈ s0 :: srest ∧ containsLn c L ∧
        ∀ b ∈ s0 :: srest, containsLn b L →
          b.line_start ≤ c.line_start ∧ c.line_end ≤ b.line_end) ∧
    ((∀ a ∈ s0 :: srest, ¬ containsLn a L) →
      closestSymbol sf (some L) fs = some s0 ∧
        ∀ b ∈ s0 :: srest, s0.line_start ≤ b.line_start) := by
  have hcs : closestSymbol sf (some L) fs =
      (match (s0 :: srest).reverse.find?
          (fun sym => decide (sym.line_start ≤ L ∧ L ≤ sym.line_end ∧ 0 < sym.line_end)) with
        | some c => some c
        | none => some s0) := by
    simp only [closestSymbol, hlk]
    rw [foldl_lastSat (fun sym : Sym => sym.line_start ≤ L ∧ L ≤ sym.line_end ∧ 0 < sym.line_end)
      (s0 :: srest) none]
    cases (s0 :: srest).reverse.find?
        (fun sym => decide (sym.line_start ≤ L ∧ L ≤ sym.line_end ∧ 0 < sym.line_end)) <;>
      rfl
  constructor
  · rintro ⟨a, ha, hca⟩ hdistinct hnest
    have hne : ((s0 :: srest).reverse.find?
        (fun sym => decide (sym.line_start ≤ L ∧ L ≤ sym.line_end ∧ 0 < sym.line_end))) ≠
          none := by
      rw [Ne, List.find?_eq_none]
      push_neg
      exact ⟨a, List.mem_reverse.mpr ha, by simpa [containsLn] using hca⟩
    obtain ⟨c, hc⟩ := Option.ne_none_iff_exists'.mp hne
    obtain ⟨l1, l2, hsplit, hl1, hpc⟩ := find?_split hc
    have hcmem : c ∈ s0 :: srest :=
      List.mem_reverse.mp (hsplit ▸ (List.mem_append.mpr (Or.inr (List.mem_cons_self _ _))))
    have hcc : containsLn c L := by simpa [containsLn] using of_decide_eq_true hpc
    refine ⟨c, by rw [hcs, hc], hcmem, hcc, ?_⟩
    intro b hb hcb
    by_cases hbc : b = c
    · subst hbc
      exact ⟨le_refl _, le_refl _⟩
    · have hbrev : b ∈ l2 := by
        have : b ∈ l1 ++ c :: l2 := hsplit ▸ List.mem_reverse.mpr hb
        rcases List.mem_append.mp this with h | h
        · exact absurd (by simpa [containsLn] using hcb)
            (by simpa using hl1 b h)
        · rcases List.mem_cons.mp h with h | h
          · exact absurd h hbc
          · exact h
      have hforward : s0 :: srest = l2.reverse ++ c :: l1.reverse := by
        have := congrArg List.reverse hsplit
        simpa [List.reverse_append] using this
      have hble : b.line_start ≤ c.line_start := by
        rw [hforward] at hsorted
        have := (List.pairwise_append.mp hsorted).2.2 b (List.mem_reverse.mpr hbrev) c
          (List.mem_cons_self _ _)
        exact this
      have hbne : b.line_start ≠ c.line_start :=
        hdistinct b hb c hcmem hcb hcc hbc
      rcases hnest c hcmem b hb hcc hcb with h | h
      · exact h
      · exact absurd (le_antisymm hble h.1) hbne
  · intro hnone
    have hfn : ((s0 :: srest).reverse.find?
        (fun sym => decide (sym.line_start ≤ L ∧ L ≤ sym.line_end ∧ 0 < sym.line_end))) =
          none := by
      rw [List.find?_eq_none]
      intro x hx
      simpa [containsLn] using hnone x (List.mem_reverse.mp hx)
    refine ⟨by rw [hcs, hfn], ?_⟩
    intro b hb
    rcases List.mem_cons.mp hb with rfl | hb
    · exact le_refl _
    · exact (List.pairwise_cons.mp hsorted).1 b hb

/-- Witness: nested symbols with distinct start lines — the innermost
containing symbol is chosen; and the same file with a line outside all
symbols falls back to the first symbol. -/
theorem closest_symbol_resolution_witness :
    (∃ c, closestSymbol "w.py" (some 3) (buildFileSymbols witC4Tbl) = some c ∧
      c ∈ witW2 :: [witW1] ∧ containsLn c 3 ∧
      ∀ b ∈ witW2 :: [witW1], containsLn b 3 →
        b.line_start ≤ c.line_start ∧ c.line_end ≤ b.line_end) ∧
    closestSymbol "w.py" (some 20) (buildFileSymbols witC4Tbl) = some witW2 := by
  constructor
  · exact (closest_symbol_resolution "w.py" 3 (buildFileSymbols witC4Tbl) witW2 [witW1]
      (by decide) (by decide)).1 (by decide) (by decide) (by decide)
  · exact ((closest_symbol_resolution "w.py" 20 (buildFileSymbols witC4Tbl) witW2 [witW1]
      (by decide) (by decide)).2 (by decide)).1

/-! # C9 — unresolvable references are skipped silently -/

theorem alistLookup_alInsertAppend (m : SymTbl) (k0 : String) (s0 : Sym) (k : String) :
    alistLookup (alInsertAppend m k0 s0) k =
      if k = k0 then some ((alistLookup m k).getD [] ++ [s0]) else alistLookup m k := by
  induction m with
  | nil =>
    by_cases hk : k = k0
    · subst hk
      simp [alInsertAppend, alistLookup]
    · have hk' : ¬ k0 = k := fun e => hk e.symm
      simp [alInsertAppend, alistLookup, hk, hk']
  | cons kv rest ih =>
    obtain ⟨k', v⟩ := kv
    simp only [alInsertAppend]
    by_cases h1 : k' = k0
    · subst h1
      rw [if_pos rfl]
      by_cases hk : k' = k
      · subst hk
        simp [alistLookup]
      · have hk2 : ¬ k = k' := fun e => hk e.symm
        simp [alistLookup, hk, hk2]
    · rw [if_neg h1]
      by_cases hk : k' = k
      · subst hk
        have hk0 : ¬ k' = k0 := h1
        simp [alistLookup, hk0]
      · simp [alistLookup, hk, ih]

theorem lookupSyms_alInsertAppend (m : SymTbl) (k0 : String) (s0 : Sym) (k : String) :
    lookupSyms (alInsertAppend m k0 s0) k =
      if k = k0 then lookupSyms m k ++ [s0] else lookupSyms m k := by
  unfold lookupSyms
  rw [alistLookup_alInsertAppend]
  by_cases hk : k = k0 <;> simp [hk]

theorem foldl_alInsert_mem (kf : Sym → String) :
    ∀ (l : List Sym) (m0 : SymTbl) (k : String) (s : Sym),
      s ∈ lookupSyms
          (l.foldl (fun m x => if kf x ≠ "" then alInsertAppend m (kf x) x else m) m0) k →
      s ∈ lookupSyms m0 k ∨ (s ∈ l ∧ kf s = k) := by
  intro l
  induction l with
  | nil =>
    intro m0 k s h
    exact Or.inl h
  | cons x xs ih =>
    intro m0 k s h
    simp only [List.foldl_cons] at h
    rcases ih _ k s h with h1 | h1
    · by_cases hg : kf x ≠ ""
      · rw [if_pos hg, lookupSyms_alInsertAppend] at h1
        by_cases hk : k = kf x
        · rw [if_pos hk] at h1
          rcases List.mem_append.mp h1 with h2 | h2
          · exact Or.inl h2
          · rcases List.mem_singleton.mp h2 with rfl
            exact Or.inr ⟨List.mem_cons_self _ _, hk.symm⟩
        · rw [if_neg hk] at h1
          exact Or.inl h1
      · rw [if_neg hg] at h1
        exact Or.inl h1
    · exact Or.inr ⟨List.mem_cons_of_mem _ h1.1, h1.2⟩

theorem mem_buildQualified {tbl : SymTbl} {q : String} {s : Sym}
    (h : s ∈ lookupSyms (buildQualified tbl) q) :
    s ∈ allSyms tbl ∧ s.qualified_name = q := by
  rcases foldl_alInsert_mem (fun s => s.qualified_name) (allSyms tbl) [] q s h with h1 | h1
  · simp [lookupSyms, alistLookup] at h1
  · exact h1

theorem alistLookup_map_val {κ β γ : Type} [DecidableEq κ] (g : β → γ)
    (m : List (κ × β)) (k : κ) :
    alistLookup (m.map (fun kv => (kv.1, g kv.2))) k = (alistLookup m k).map g := by
  induction m with
  | nil => simp [alistLookup]
  | cons kv rest ih =>
    obtain ⟨k', v⟩ := kv
    by_cases hk : k' = k
    · subst hk
      simp [alistLookup]
    · simp [alistLookup, hk, ih]

theorem mem_buildFileSymbols {tbl : SymTbl} {f : String} {s : Sym}
    (h : s ∈ lookupSyms (buildFileSymbols tbl) f) :
    s ∈ allSyms tbl ∧ s.file_path = f := by
  unfold buildFileSymbols at h
  rw [lookupSyms, alistLookup_map_val] at h
  cases halk : alistLookup ((allSyms tbl).foldl
      (fun m s => if s.file_path ≠ "" then alInsertAppend m s.file_path s else m) []) f with
  | none => rw [halk] at h; simp at h
  | some v =>
    rw [halk] at h
    simp only [Option.map_some', Option.getD_some] at h
    have hv : s ∈ lookupSyms ((allSyms tbl).foldl
        (fun m s => if s.file_path ≠ "" then alInsertAppend m s.file_path s else m) []) f := by
      rw [lookupSyms, halk]
      exact mem_pySort.mp h
    rcases foldl_alInsert_mem (fun s => s.file_path) (allSyms tbl) [] f s hv with h1 | h1
    · simp [lookupSyms, alistLookup] at h1
    · exact h1

theorem bestMatch_empty_candidates {name source_file ref_kind source_parent : String}
    {tbl : SymTbl} {impMapArg : List ((String × String) × String)}
    (h : lookupSyms tbl name = []) :
    bestMatch name source_file tbl ref_kind source_parent impMapArg = none := by
  unfold bestMatch
  rw [h]
  rfl

/-- One bad reference contributes nothing to the accumulator. -/
theorem resolveStep_bad (refs : List Ref) (tbl : SymTbl) (r : Ref)
    (hbad : BadRef tbl r) (acc : List Edge × List (Nat × Nat × String)) :
    resolveStep (buildMaps refs tbl) tbl acc r = acc := by
  rcases hbad with h | ⟨h1, h2⟩ | ⟨h1, h2⟩
  · simp [resolveStep, h]
  · unfold resolveStep
    by_cases ht : r.target_name = ""
    · simp [ht]
    · rw [if_neg ht]
      cases hsrc : findSource (buildMaps refs tbl) tbl r with
      | none => rfl
      | some src =>
        have hqn : lookupSyms (buildMaps refs tbl).qn r.target_name = [] := by
          rw [List.eq_nil_iff_forall_not_mem]
          intro s hs
          have hs' : s ∈ lookupSyms (buildQualified tbl) r.target_name := hs
          exact h2 s (mem_buildQualified hs').1 (mem_buildQualified hs').2
        have htgt : findTarget (buildMaps refs tbl) tbl r
            (sourceParent src.qualified_name) = none := by
          unfold findTarget
          rw [hqn]
          simp only [List.length_nil]
          rw [if_neg (by omega), if_neg (by omega)]
          simpa using bestMatch_empty_candidates h1
        simp only [hsrc, htgt]
  · have hsrc : findSource (buildMaps refs tbl) tbl r = none := by
      unfold findSource
      rw [bestMatch_empty_candidates h1]
      have hfl : lookupSyms (buildFileSymbols tbl) r.source_file = [] := by
        rw [List.eq_nil_iff_forall_not_mem]
        intro s hs
        exact h2 s (mem_buildFileSymbols hs).1 (mem_buildFileSymbols hs).2
      unfold closestSymbol
      rw [lookupSyms] at hfl
      cases halk : alistLookup (buildMaps refs tbl).fileSyms r.source_file with
      | none => rfl
      | some v =>
        have : v = [] := by
          have halk' : alistLookup (buildFileSymbols tbl) r.source_file = some v := halk
          rw [halk'] at hfl
          simpa using hfl
        subst this
        rfl
    unfold resolveStep
    by_cases ht : r.target_name = ""
    · simp [ht]
    · rw [if_neg ht]
      simp only [hsrc]

/-- C9: a reference with an empty target name, a target name matching
no symbol (by name or qualified name), or an unresolvable source in a
file without symbols produces no edge and no error: the run over the
full list equals the same fold with that reference skipped (and the
Lean embedding is total, mirroring the exception-free source loop). -/
theorem bad_ref_skipped (l1 l2 : List Ref) (r : Ref) (tbl : SymTbl)
    (fbp : List (String × Nat)) (hbad : BadRef tbl r) :
    resolveReferences (l1 ++ r :: l2) tbl fbp =
      ((l1 ++ l2).foldl (resolveStep (buildMaps (l1 ++ r :: l2) tbl) tbl) ([], [])).1 := by
  simp only [resolveReferences]
  rw [List.foldl_append, List.foldl_cons, resolveStep_bad (l1 ++ r :: l2) tbl r hbad,
    ← List.foldl_append]

/-- Witness: an empty-target reference between two good references is
skipped, leaving exactly the edges of the good references. -/
theorem bad_ref_skipped_witness :
    resolveReferences [cexC2Ref, ⟨"", "", "call", none, "", ""⟩] cexC2Tbl [] =
      (([cexC2Ref] : List Ref).foldl
        (resolveStep (buildMaps [cexC2Ref, ⟨"", "", "call", none, "", ""⟩] cexC2Tbl) cexC2Tbl)
        ([], [])).1 :=
  bad_ref_skipped [cexC2Ref] [] ⟨"", "", "call", none, "", ""⟩ cexC2Tbl [] (Or.inl rfl)

/-! # C1 — resolver edge invariants -/

theorem mem_lookupSyms_allSyms {tbl : SymTbl} {n : String} {s : Sym}
    (h : s ∈ lookupSyms tbl n) : s ∈ allSyms tbl := by
  unfold lookupSyms at h
  cases halk : alistLookup tbl n with
  | none => rw [halk] at h; simp at h
  | some v =>
    rw [halk] at h
    simp only [Option.getD_some] at h
    exact List.mem_flatMap.mpr ⟨(n, v), alistLookup_mem halk, h⟩

theorem resolveSalesforceImport_sub {ip : String} {candidates : List Sym} {sres : Sym}
    (h : sres ∈ resolveSalesforceImport ip candidates) : sres ∈ candidates := by
  simp only [resolveSalesforceImport] at h
  by_cases h0 : ¬ ip.startsWith "@salesforce/" = true
  · rw [if_pos h0] at h
    simp at h
  · rw [if_neg h0] at h
    by_cases h1 : ip.startsWith "@salesforce/apex/" = true
    · rw [if_pos h1] at h
      exact (List.mem_filter.mp h).1
    · rw [if_neg h1] at h
      by_cases h2 : ip.startsWith "@salesforce/schema/" = true
      · rw [if_pos h2] at h
        exact (List.mem_filter.mp h).1
      · rw [if_neg h2] at h
        by_cases h3 : ip.startsWith "@salesforce/label/" = true
        · rw [if_pos h3] at h
          exact (List.mem_filter.mp h).1
        · rw [if_neg h3] at h
          simp at h

theorem matchImportPath_sub {ip : String} {candidates : List Sym} {sres : Sym}
    (h : sres ∈ matchImportPath ip candidates) : sres ∈ candidates := by
  simp only [matchImportPath] at h
  by_cases h0 : ip = ""
  · rw [if_pos h0] at h
    simp at h
  · rw [if_neg h0] at h
    by_cases h1 : ¬ (resolveSalesforceImport ip candidates).isEmpty = true
    · rw [if_pos h1] at h
      exact resolveSalesforceImport_sub h
    · rw [if_neg h1] at h
      exact (List.mem_filter.mp h).1

theorem foldl_lastSat_mem {α : Type} (P : α → Prop) [DecidablePred P] :
    ∀ (l : List α) (init : Option α) (c : α),
      l.foldl (fun acc x => if P x then some x else acc) init = some c →
      init = some c ∨ c ∈ l := by
  intro l
  induction l with
  | nil => intro init c h; exact Or.inl h
  | cons x xs ih =>
    intro init c h
    rcases ih _ c h with h1 | h1
    · have h1' : (if P x then some x else init) = some c := h1
      by_cases hp : P x
      · rw [if_pos hp] at h1'
        obtain rfl : x = c := by injection h1'
        exact Or.inr (List.mem_cons_self _ _)
      · rw [if_neg hp] at h1'
        exact Or.inl h1'
    · exact Or.inr (List.mem_cons_of_mem _ h1)

theorem bestMatch_mem {name source_file ref_kind source_parent : String} {tbl : SymTbl}
    {im : List ((String × String) × String)} {sres : Sym}
    (h : bestMatch name source_file tbl ref_kind source_parent im = some sres) :
    sres ∈ lookupSyms tbl name := by
  have hfilter : ∀ (p : Sym → Bool) (l : List Sym) {x : Sym}, x ∈ l.filter p → x ∈ l :=
    fun p l x hx => (List.mem_filter.mp hx).1
  simp only [bestMatch] at h
  split at h
  · exact absurd h (by simp)
  split at h
  · exact head?_mem h
  split at h
  · -- constructor heuristic hit
    next s' hctor =>
      injection h with hinj
      subst hinj
      split at hctor
      · split at hctor
        · exact absurd hctor (by simp)
        · split at hctor
          · next hf =>
              injection hctor with hinj2
              subst hinj2
              exact hfilter _ _ (List.mem_of_find?_eq_some hf)
          · split at hctor
            · next hf =>
                injection hctor with hinj2
                subst hinj2
                exact hfilter _ _ (List.mem_of_find?_eq_some hf)
            · exact hfilter _ _ (head?_mem hctor)
      · exact absurd hctor (by simp)
  · -- ctor missed: locality chain
    split at h
    · exact hfilter _ _ (head?_mem h)
    split at h
    · split at h
      · split at h
        · next hf =>
            injection h with hinj
            subst hinj
            exact hfilter _ _ (List.mem_of_find?_eq_some hf)
        · exact hfilter _ _ (head?_mem h)
      · exact hfilter _ _ (head?_mem h)
    · split at h
      · split at h
        · exact hfilter _ _ (hfilter _ _ (head?_mem h))
        · exact hfilter _ _ (head?_mem h)
      · split at h
        · -- viaImport branch
          next s' hvi =>
            injection h with hinj
            subst hinj
            split at hvi
            · split at hvi
              · split at hvi
                · split at hvi
                  · exact matchImportPath_sub (hfilter _ _ (head?_mem hvi))
                  · exact matchImportPath_sub (head?_mem hvi)
                · exact absurd hvi (by simp)
              · exact absurd hvi (by simp)
            · exact absurd hvi (by simp)
        · split at h
          · exact hfilter _ _ (head?_mem h)
          · exact head?_mem h

theorem closestSymbol_mem {sf : String} {line : Option Nat} {fs : SymTbl} {sres : Sym}
    (h : closestSymbol sf line fs = some sres) : sres ∈ lookupSyms fs sf := by
  simp only [closestSymbol] at h
  split at h
  · exact absurd h (by simp)
  · exact absurd h (by simp)
  · next s0 srest halk =>
      have hsyms : lookupSyms fs sf = s0 :: srest := by
        rw [lookupSyms, halk]
        rfl
      rw [hsyms]
      split at h
      · injection h with hinj
        subst hinj
        exact List.mem_cons_self _ _
      · split at h
        · next c hfold =>
            injection h with hinj
            subst hinj
            rcases foldl_lastSat_mem
                (fun sym : Sym => sym.line_start ≤ _ ∧ _ ≤ sym.line_end ∧ 0 < sym.line_end)
                (s0 :: srest) none c hfold with h1 | h1
            · exact absurd h1 (by simp)
            · exact h1
        · injection h with hinj
          subst hinj
          exact List.mem_cons_self _ _

theorem findSource_mem {refs : List Ref} {tbl : SymTbl} {r : Ref} {sres : Sym}
    (h : findSource (buildMaps refs tbl) tbl r = some sres) : sres ∈ allSyms tbl := by
  simp only [findSource] at h
  split at h
  · next s' hbm =>
      injection h with hinj
      subst hinj
      exact mem_lookupSyms_allSyms (bestMatch_mem hbm)
  · next =>
      have h' : closestSymbol r.source_file r.line (buildFileSymbols tbl) = some sres := h
      exact (mem_buildFileSymbols (closestSymbol_mem h')).1

theorem findTarget_mem {refs : List Ref} {tbl : SymTbl} {r : Ref} {sp : String} {sres : Sym}
    (h : findTarget (buildMaps refs tbl) tbl r sp = some sres) : sres ∈ allSyms tbl := by
  simp only [findTarget] at h
  split at h
  · -- t2 = some t
    next t ht2 =>
      injection h with hinj
      subst hinj
      split at ht2
      · exact absurd ht2 (by simp)
      · next ts ht1 =>
          have hts : ts ∈ allSyms tbl := by
            split at ht1
            · have h' : ts ∈ lookupSyms (buildQualified tbl) r.target_name :=
                head?_mem ht1
              exact (mem_buildQualified h').1
            · split at ht1
              · exact mem_lookupSyms_allSyms (bestMatch_mem ht1)
              · exact absurd ht1 (by simp)
          split at ht2
          · split at ht2
            · next hf =>
                injection ht2 with hinj2
                subst hinj2
                exact mem_lookupSyms_allSyms (List.mem_of_find?_eq_some hf)
            · split at ht2
              · split at ht2
                · next hf =>
                    injection ht2 with hinj2
                    subst hinj2
                    exact mem_lookupSyms_allSyms (List.mem_of_find?_eq_some hf)
                · injection ht2 with hinj2
                  subst hinj2
                  exact hts
              · injection ht2 with hinj2
                subst hinj2
                exact hts
          · injection ht2 with hinj2
            subst hinj2
            exact hts
  · exact mem_lookupSyms_allSyms (bestMatch_mem h)

/-- Invariant carried by the `resolve_references` loop. -/
theorem resolveStep_inv (refs : List Ref) (tbl : SymTbl)
    (acc : List Edge × List (Nat × Nat × String)) (r : Ref)
    (h1 : ∀ e ∈ acc.1, e.source_id ≠ e.target_id ∧
      e.source_id ∈ (allSyms tbl).map Sym.id ∧ e.target_id ∈ (allSyms tbl).map Sym.id)
    (h2 : (acc.1.map edgeKey).Nodup)
    (h3 : ∀ k, k ∈ acc.2 ↔ k ∈ acc.1.map edgeKey) :
    (∀ e ∈ (resolveStep (buildMaps refs tbl) tbl acc r).1,
      e.source_id ≠ e.target_id ∧
      e.source_id ∈ (allSyms tbl).map Sym.id ∧ e.target_id ∈ (allSyms tbl).map Sym.id) ∧
    (((resolveStep (buildMaps refs tbl) tbl acc r).1.map edgeKey).Nodup) ∧
    (∀ k, k ∈ (resolveStep (buildMaps refs tbl) tbl acc r).2 ↔
      k ∈ (resolveStep (buildMaps refs tbl) tbl acc r).1.map edgeKey) := by
  simp only [resolveStep]
  split
  · exact ⟨h1, h2, h3⟩
  split
  · exact ⟨h1, h2, h3⟩
  next src hsrc =>
    split
    · exact ⟨h1, h2, h3⟩
    next tgt htgt =>
      split
      · exact ⟨h1, h2, h3⟩
      next hne =>
        split
        · exact ⟨h1, h2, h3⟩
        next hseen =>
          have hsrcmem : src.id ∈ (allSyms tbl).map Sym.id :=
            List.mem_map.mpr ⟨src, findSource_mem hsrc, rfl⟩
          have htgtmem : tgt.id ∈ (allSyms tbl).map Sym.id :=
            List.mem_map.mpr ⟨tgt, findTarget_mem htgt, rfl⟩
          refine ⟨?_, ?_, ?_⟩
          · intro e he
            rcases List.mem_append.mp he with he | he
            · exact h1 e he
            · rcases List.mem_singleton.mp he with rfl
              exact ⟨hne, hsrcmem, htgtmem⟩
          · simp only [List.map_append]
            rw [List.nodup_append]
            refine ⟨h2, by simp [edgeKey], ?_⟩
            intro k hk
            simp only [List.map_cons, List.map_nil, List.mem_singleton]
            rintro rfl
            exact hseen ((h3 _).mpr hk)
          · intro k
            simp only [List.mem_append, List.map_append, h3 k, List.map_cons, List.map_nil,
              edgeKey]

/-- C1: every edge list produced by `resolve_references` has no
self-edge, pairwise distinct `(source, target, kind)` keys (duplicate
references collapse), and endpoints drawn from the ids of the symbols
in the given table. -/
theorem resolve_references_invariants (refs : List Ref) (tbl : SymTbl)
    (fbp : List (String × Nat)) :
    (∀ e ∈ resolveReferences refs tbl fbp,
      e.source_id ≠ e.target_id ∧
      e.source_id ∈ (allSyms tbl).map Sym.id ∧
      e.target_id ∈ (allSyms tbl).map Sym.id) ∧
    ((resolveReferences refs tbl fbp).map edgeKey).Nodup := by
  have main : ∀ (l : List Ref) (acc : List Edge × List (Nat × Nat × String)),
      (∀ e ∈ acc.1, e.source_id ≠ e.target_id ∧
        e.source_id ∈ (allSyms tbl).map Sym.id ∧ e.target_id ∈ (allSyms tbl).map Sym.id) →
      (acc.1.map edgeKey).Nodup →
      (∀ k, k ∈ acc.2 ↔ k ∈ acc.1.map edgeKey) →
      (∀ e ∈ (l.foldl (resolveStep (buildMaps refs tbl) tbl) acc).1,
        e.source_id ≠ e.target_id ∧
        e.source_id ∈ (allSyms tbl).map Sym.id ∧
        e.target_id ∈ (allSyms tbl).map Sym.id) ∧
      (((l.foldl (resolveStep (buildMaps refs tbl) tbl) acc).1.map edgeKey).Nodup) := by
    intro l
    induction l with
    | nil => intro acc h1 h2 h3; exact ⟨h1, h2⟩
    | cons r rs ih =>
      intro acc h1 h2 h3
      simp only [List.foldl_cons]
      obtain ⟨g1, g2, g3⟩ := resolveStep_inv refs tbl acc r h1 h2 h3
      exact ih _ g1 g2 g3
  simpa [resolveReferences] using main refs ([], []) (by simp) (by simp) (by simp)

/-- Witness for C1 at a concrete run (the C2 counterexample data). -/
theorem resolve_references_invariants_witness :
    (∀ e ∈ resolveReferences [cexC2Ref] cexC2Tbl [],
      e.source_id ≠ e.target_id ∧
      e.source_id ∈ (allSyms cexC2Tbl).map Sym.id ∧
      e.target_id ∈ (allSyms cexC2Tbl).map Sym.id) ∧
    ((resolveReferences [cexC2Ref] cexC2Tbl []).map edgeKey).Nodup :=
  resolve_references_invariants [cexC2Ref] cexC2Tbl []

/-! # C7 — directory-distribution labels for oversize communities -/

/-- C7 counterexample: cluster 0 holds 2 of 3 graphed symbols (67 %,
beyond the 40 % threshold), yet because all its members share one
directory its label is the anchor label `"a/C"` — not the
directory-distribution string (`"a 100%"`), which every distribution
label would be (they always contain `%`). -/
theorem mega_single_dir_label_cex :
    labelClusters cexC7Clusters cexC7Paths cexC7Infos = [(0, "a/C"), (1, "b/h")] ∧
      buildGroups cexC7Clusters = [(0, [1, 2]), (1, [3])] ∧
      isMegaCluster cexC7Clusters.length 2 ∧
      megaLabel [1, 2] cexC7Paths = "a 100%" ∧
      strHasSub "a/C" "%" = false ∧ ("a/C" : String) ≠ "a 100%" := by
  decide

/-- C7 amended: a community exceeding 100 symbols or 40 % of the graph
gets the directory-distribution label (top three parent directories
with percentages) provided its members span more than one distinct
parent directory; single-directory communities keep the anchor label
even beyond the size thresholds. -/
theorem mega_multi_dir_label (clusters : List (Nat × Nat)) (p : List (Nat × String))
    (info : List (Nat × ClusterSymInfo)) (cid : Nat) (members : List Nat)
    (hg : (cid, members) ∈ buildGroups clusters)
    (hm : isMegaCluster clusters.length members.length)
    (hd : 1 < (counterOf (clusterDirs members p)).length) :
    (cid, megaLabel members p) ∈ labelClusters clusters p info := by
  have hne : clusters ≠ [] := by
    rintro rfl
    simp [buildGroups] at hg
  unfold labelClusters
  rw [if_neg (by simpa [List.isEmpty_iff] using hne)]
  refine List.mem_map.mpr ⟨(cid, members), hg, ?_⟩
  simp only [labelForCluster]
  rw [if_pos ⟨hm, hd⟩]

/-- Witness: a 75 %-of-graph community over two directories receives
the distribution label `"b 67% + a 33%"`. -/
theorem mega_multi_dir_label_witness :
    (0, megaLabel [1, 2, 3] witC7Paths) ∈ labelClusters witC7Clusters witC7Paths witC7Infos ∧
      megaLabel [1, 2, 3] witC7Paths = "b 67% + a 33%" :=
  ⟨mega_multi_dir_label witC7Clusters witC7Paths witC7Infos 0 [1, 2, 3]
      (by decide) (by decide) (by decide),
    by decide⟩

/-! # C8 — SFC preprocessing preserves lines and picks the language -/

theorem length_setTrueRange : ∀ (l : List Bool) (a b : Nat),
    (setTrueRange l a b).length = l.length
  | [], _, _ => rfl
  | _ :: rest, a, b => by
      simp [setTrueRange, length_setTrueRange rest (a - 1) (b - 1)]

theorem getD_setTrueRange : ∀ (l : List Bool) (a b i : Nat), i < l.length →
    (setTrueRange l a b).getD i false =
      (l.getD i false || (decide (a ≤ i) && decide (i < b)))
  | [], _, _, _, hi => absurd hi (by simp)
  | f :: rest, a, b, 0, _ => by
      simp only [setTrueRange, List.getD]
      by_cases hc : a = 0 ∧ 0 < b
      · rw [if_pos hc]
        simp [hc.1, hc.2]
      · rw [if_neg hc]
        have : ¬(a ≤ 0 ∧ 0 < b) := fun ⟨ha, hb⟩ => hc ⟨Nat.le_zero.mp ha, hb⟩
        rcases Decidable.not_and_iff_or_not.mp this with hh | hh <;> simp [hh]
  | f :: rest, a, b, i + 1, hi => by
      have hi' : i < rest.length := by simpa using hi
      simp only [setTrueRange, List.getD_cons_succ]
      rw [getD_setTrueRange rest (a - 1) (b - 1) i hi']
      have e1 : decide (a - 1 ≤ i) = decide (a ≤ i + 1) := decide_eq_decide.mpr (by omega)
      have e2 : decide (i < b - 1) = decide (i + 1 < b) := decide_eq_decide.mpr (by omega)
      rw [e1, e2]

theorem length_foldl_setTrueRange (f g : SMatch → Nat) :
    ∀ (ms : List SMatch) (init : List Bool),
      (ms.foldl (fun flags m => setTrueRange flags (f m) (g m)) init).length = init.length
  | [], _ => rfl
  | m :: ms, init => by
      simp only [List.foldl_cons]
      rw [length_foldl_setTrueRange f g ms, length_setTrueRange]

theorem getD_foldl_setTrueRange (f g : SMatch → Nat) :
    ∀ (ms : List SMatch) (init : List Bool) (i : Nat), i < init.length →
      (ms.foldl (fun flags m => setTrueRange flags (f m) (g m)) init).getD i false =
        (init.getD i false || ms.any (fun m => decide (f m ≤ i) && decide (i < g m)))
  | [], _, _, _ => by simp
  | m :: ms, init, i, hi => by
      simp only [List.foldl_cons, List.any_cons]
      rw [getD_foldl_setTrueRange f g ms _ i (by rw [length_setTrueRange]; exact hi),
        getD_setTrueRange init _ _ i hi, Bool.or_assoc]

theorem length_scriptLineFlags (s : List Char) (numLines : Nat) (ms : List SMatch) :
    (scriptLineFlags s numLines ms).length = numLines := by
  unfold scriptLineFlags
  rw [length_foldl_setTrueRange]
  exact List.length_replicate _ _

theorem getD_scriptLineFlags (s : List Char) (numLines : Nat) (ms : List SMatch)
    (i : Nat) (hi : i < numLines) :
    (scriptLineFlags s numLines ms).getD i false =
      ms.any (fun m => decide (contentStartLine s m ≤ i) &&
        decide (i < min (contentEndLine s m) numLines)) := by
  unfold scriptLineFlags
  rw [getD_foldl_setTrueRange _ _ ms _ i (by simp [hi])]
  simp

theorem length_outputLines : ∀ (ls : List (List Char)) (fs : List Bool),
    (outputLines ls fs).length = min ls.length fs.length
  | [], _ => by simp [outputLines]
  | _ :: _, [] => by simp [outputLines]
  | l :: ls, f :: fs => by
      simp only [outputLines, List.length_cons]
      rw [length_outputLines ls fs]
      omega

theorem getD_outputLines : ∀ (ls : List (List Char)) (fs : List Bool) (i : Nat),
    i < ls.length → i < fs.length →
    (outputLines ls fs).getD i [] = (if fs.getD i false then ls.getD i [] else [])
  | [], _, i, hi, _ => absurd hi (by simp)
  | _ :: _, [], i, _, hi => absurd hi (by simp)
  | l :: ls, f :: fs, 0, _, _ => by simp [outputLines]
  | l :: ls, f :: fs, i + 1, hi, hi' => by
      simp only [outputLines, List.getD_cons_succ]
      exact getD_outputLines ls fs i (by simpa using hi) (by simpa using hi')

theorem mem_outputLines : ∀ (ls : List (List Char)) (fs : List Bool) (l : List Char),
    l ∈ outputLines ls fs → l ∈ ls ∨ l = []
  | [], _, l, h => by simp [outputLines] at h
  | _ :: _, [], l, h => by simp [outputLines] at h
  | x :: ls, f :: fs, l, h => by
      rcases List.mem_cons.mp h with h | h
      · subst h
        by_cases hf : f = true
        · simp [hf]
        · simp [Bool.eq_false_iff.mpr hf]
      · rcases mem_outputLines ls fs l h with h | h
        · exact Or.inl (List.mem_cons_of_mem _ h)
        · exact Or.inr h

theorem splitNl_ne_nil : ∀ (s : List Char), splitNl s ≠ []
  | [] => by simp [splitNl]
  | c :: rest => by
      have := splitNl_ne_nil rest
      simp only [splitNl]
      cases h : splitNl rest with
      | nil => simp
      | cons hd tl => by_cases hc : c = '\n' <;> simp [hc]

theorem splitNl_no_nl : ∀ (s : List Char) (l : List Char), l ∈ splitNl s → '\n' ∉ l
  | [], l, h => by
      simp only [splitNl, List.mem_singleton] at h
      subst h
      simp
  | c :: rest, l, h => by
      simp only [splitNl] at h
      cases hs : splitNl rest with
      | nil => exact absurd hs (splitNl_ne_nil rest)
      | cons hd tl =>
        simp only [hs] at h
        by_cases hc : c = '\n'
        · rw [if_pos hc] at h
          rcases List.mem_cons.mp h with rfl | h
          · simp
          · exact splitNl_no_nl rest l (hs ▸ h)
        · rw [if_neg hc] at h
          rcases List.mem_cons.mp h with rfl | h
          · intro hmem
            rcases List.mem_cons.mp hmem with he | hmem
            · exact hc he.symm
            · exact splitNl_no_nl rest hd (hs ▸ List.mem_cons_self hd tl) hmem
          · exact splitNl_no_nl rest l (hs ▸ List.mem_cons_of_mem hd h)

theorem splitNl_noNl_single : ∀ (l : List Char), '\n' ∉ l → splitNl l = [l]
  | [], _ => rfl
  | c :: rest, h => by
      have hc : ¬ c = '\n' := fun e => h (e ▸ List.mem_cons_self c rest)
      have := splitNl_noNl_single rest (fun hm => h (List.mem_cons_of_mem _ hm))
      simp [splitNl, this, hc]

theorem splitNl_append_noNl : ∀ (a b : List Char) (h0 : List Char) (t : List (List Char)),
    '\n' ∉ a → splitNl b = h0 :: t → splitNl (a ++ b) = (a ++ h0) :: t
  | [], b, h0, t, _, hb => by simpa using hb
  | c :: cs, b, h0, t, ha, hb => by
      have hc : ¬ c = '\n' := fun e => ha (e ▸ List.mem_cons_self c cs)
      have ih := splitNl_append_noNl cs b h0 t (fun hm => ha (List.mem_cons_of_mem _ hm)) hb
      simp [splitNl, ih, hc]

theorem splitNl_joinNl : ∀ (L : List (List Char)), L ≠ [] → (∀ l ∈ L, '\n' ∉ l) →
    splitNl (joinNl L) = L
  | [], h, _ => absurd rfl h
  | [l], _, hno => by
      rw [joinNl]
      exact splitNl_noNl_single l (hno l (List.mem_singleton.mpr rfl))
  | l :: l' :: L, _, hno => by
      have ih := splitNl_joinNl (l' :: L) (by simp)
        (fun x hx => hno x (List.mem_cons_of_mem _ hx))
      have hjoin : joinNl (l :: l' :: L) = l ++ '\n' :: joinNl (l' :: L) := rfl
      rw [hjoin]
      have hsplit : splitNl ('\n' :: joinNl (l' :: L)) = [] :: l' :: L := by
        simp only [splitNl]
        cases hs : splitNl (joinNl (l' :: L)) with
        | nil => exact absurd hs (splitNl_ne_nil _)
        | cons hd tl =>
          rw [hs] at ih
          simp [ih]
      rw [splitNl_append_noNl l ('\n' :: joinNl (l' :: L)) [] (l' :: L)
        (hno l (List.mem_cons_self _ _)) hsplit]
      simp

theorem effectiveLangOf_any (s : List Char) (ms : List SMatch) :
    effectiveLangOf s ms =
      (if ms.any (fun m => tsAttrs (attrsOf s m)) then "typescript".toList
       else "javascript".toList) := by
  have main : ∀ (l : List SMatch) (init : List Char),
      (l.foldl (fun lang m => if tsAttrs (attrsOf s m) then "typescript".toList else lang)
        init) =
      (if l.any (fun m => tsAttrs (attrsOf s m)) then "typescript".toList else init) := by
    intro l
    induction l with
    | nil => intro init; simp
    | cons m ms ih =>
      intro init
      simp only [List.foldl_cons, List.any_cons, ih]
      by_cases hm : tsAttrs (attrsOf s m) = true
      · simp [hm]
      · simp [Bool.eq_false_iff.mpr hm]
  exact main ms _

theorem matchScriptAt_bounds {s : List Char} {p : Nat} {m : SMatch}
    (h : matchScriptAt s p = some m) :
    m.mstart = p ∧ m.mstart + 8 ≤ m.tagEnd ∧ m.tagEnd ≤ m.closeStart := by
  unfold matchScriptAt at h
  cases hop : openTagEndAt s p with
  | none => simp [hop] at h
  | some te =>
    simp only [hop] at h
    cases hfs : findSub scriptClosePat (s.drop te) with
    | none => simp [hfs] at h
    | some j =>
      simp only [hfs] at h
      injection h with h
      subst h
      refine ⟨rfl, ?_, by simp⟩
      show p + 8 ≤ te
      unfold openTagEndAt at hop
      split at hop
      · split at hop
        · injection hop with hop
          omega
        · next cch rest0 hcne heq =>
            split at hop
            · cases hf2 : findSub ['>'] rest0 with
              | none => simp [hf2] at hop
              | some j2 =>
                simp only [hf2, Option.map_some', Option.some.injEq] at hop
                omega
            · exact absurd hop (by simp)
        · exact absurd hop (by simp)
      · exact absurd hop (by simp)

theorem scanScripts_mem {s : List Char} :
    ∀ (fuel p : Nat) (m : SMatch), m ∈ scanScripts s fuel p →
      ∃ q, matchScriptAt s q = some m
  | 0, _, m, h => by simp [scanScripts] at h
  | fuel + 1, p, m, h => by
      simp only [scanScripts] at h
      split at h
      · split at h
        · next m' hma =>
            rcases List.mem_cons.mp h with rfl | h
            · exact ⟨p, hma⟩
            · exact scanScripts_mem fuel _ m h
        · exact scanScripts_mem fuel _ m h
      · simp at h

theorem countNl_take_seg (s : List Char) (a b : Nat) (hab : a ≤ b) :
    countNl (s.take a) + countNl (seg s a b) = countNl (s.take b) := by
  have hsplit : s.take b = s.take a ++ seg s a b := by
    unfold seg
    have h1 := List.take_append_drop a (s.take b)
    rw [List.take_take, min_eq_left hab] at h1
    exact h1.symm
  rw [hsplit]
  unfold countNl
  rw [List.count_append]

/-- C8 (amended): the preprocessed buffer has exactly as many lines as
the source; every line strictly between the line where a script
block's opening tag ends and the line where its `</script>` begins is
kept verbatim and every other line becomes empty; the effective
language is TypeScript exactly when some script tag's attribute text
contains `lang="ts"`, `lang='ts'`, or `lang="tsx"`, and JavaScript
otherwise. -/
theorem preprocess_vue_spec (s : List Char) :
    ((splitNl (preprocessVue s).1).length = (splitNl s).length) ∧
    (∀ i, i < (splitNl s).length →
      ((∃ m ∈ vueScriptMatches s,
          contentStartLine s m ≤ i ∧ i < contentEndLine s m) →
        (splitNl (preprocessVue s).1).getD i [] = (splitNl s).getD i []) ∧
      ((∀ m ∈ vueScriptMatches s,
          ¬(contentStartLine s m ≤ i ∧ i < contentEndLine s m)) →
        (splitNl (preprocessVue s).1).getD i [] = [])) ∧
    (∀ m ∈ vueScriptMatches s,
      contentStartLine s m = lineOfPos s m.tagEnd + 1 ∧
      contentEndLine s m = lineOfPos s m.closeStart) ∧
    ((preprocessVue s).2 =
      if (vueScriptMatches s).any (fun m => tsAttrs (attrsOf s m)) then "typescript".toList
      else "javascript".toList) := by
  have hflagslen : (scriptLineFlags s (splitNl s).length (vueScriptMatches s)).length =
      (splitNl s).length := length_scriptLineFlags _ _ _
  have houtlen : (outputLines (splitNl s) (scriptLineFlags s (splitNl s).length
      (vueScriptMatches s))).length = (splitNl s).length := by
    rw [length_outputLines, hflagslen, min_self]
  have hsplit1 : splitNl (preprocessVue s).1 =
      outputLines (splitNl s) (scriptLineFlags s (splitNl s).length (vueScriptMatches s)) := by
    have hout_ne : outputLines (splitNl s) (scriptLineFlags s (splitNl s).length
        (vueScriptMatches s)) ≠ [] := by
      intro hempty
      have := houtlen
      rw [hempty] at this
      have hpos : 0 < (splitNl s).length :=
        List.length_pos.mpr (splitNl_ne_nil s)
      simp at this
      omega
    have hout_no : ∀ l ∈ outputLines (splitNl s)
        (scriptLineFlags s (splitNl s).length (vueScriptMatches s)), '\n' ∉ l := by
      intro l hl
      rcases mem_outputLines _ _ _ hl with h | rfl
      · exact splitNl_no_nl s l h
      · simp
    exact splitNl_joinNl _ hout_ne hout_no
  refine ⟨?_, ?_, ?_, ?_⟩
  · rw [hsplit1, houtlen]
  · intro i hi
    have hgout := getD_outputLines (splitNl s)
      (scriptLineFlags s (splitNl s).length (vueScriptMatches s)) i hi (by rw [hflagslen]; exact hi)
    have hgflag := getD_scriptLineFlags s (splitNl s).length (vueScriptMatches s) i hi
    constructor
    · rintro ⟨m, hm, hcs, hce⟩
      rw [hsplit1, hgout, hgflag]
      have hany : (vueScriptMatches s).any (fun m => decide (contentStartLine s m ≤ i) &&
          decide (i < min (contentEndLine s m) (splitNl s).length)) = true := by
        rw [List.any_eq_true]
        refine ⟨m, hm, ?_⟩
        simp only [Bool.and_eq_true, decide_eq_true_eq]
        exact ⟨hcs, lt_min hce hi⟩
      rw [hany]
      simp
    · intro hnone
      rw [hsplit1, hgout, hgflag]
      have hany : (vueScriptMatches s).any (fun m => decide (contentStartLine s m ≤ i) &&
          decide (i < min (contentEndLine s m) (splitNl s).length)) = false := by
        rw [Bool.eq_false_iff, Ne, List.any_eq_true]
        rintro ⟨m, hm, hp⟩
        simp only [Bool.and_eq_true, decide_eq_true_eq] at hp
        exact hnone m hm ⟨hp.1, lt_of_lt_of_le hp.2 (min_le_left _ _)⟩
      rw [hany]
      simp
  · intro m hm
    obtain ⟨q, hq⟩ := scanScripts_mem _ _ m hm
    obtain ⟨hq1, hq2, hq3⟩ := matchScriptAt_bounds hq
    constructor
    · unfold contentStartLine lineOfPos
      rw [countNl_take_seg s m.mstart m.tagEnd (by omega)]
    · unfold contentEndLine lineOfPos
      rw [countNl_take_seg s m.mstart m.closeStart (by omega)]
  · exact effectiveLangOf_any s (vueScriptMatches s)

/-- Witness for C8 at a concrete SFC: the script body lines survive
verbatim, all other lines are blanked, and `lang="ts"` selects
TypeScript. -/
theorem preprocess_vue_spec_witness :
    (splitNl (preprocessVue witVueSrc).1).length = (splitNl witVueSrc).length ∧
      (splitNl (preprocessVue witVueSrc).1).getD 4 [] = (splitNl witVueSrc).getD 4 [] ∧
      (splitNl (preprocessVue witVueSrc).1).getD 0 [] = [] ∧
      (preprocessVue witVueSrc).2 = "typescript".toList := by
  obtain ⟨h1, h2, -, -⟩ := preprocess_vue_spec witVueSrc
  refine ⟨h1, ?_, ?_, by decide⟩
  · exact (h2 4 (by decide)).1 (by decide)
  · exact (h2 0 (by decide)).2 (by decide)

/-- C8 counterexample: a script tag carrying `lang="tsx"` (and not
`lang="ts"` in either quote style anywhere in the source) still yields
TypeScript, contradicting the claim's "JavaScript otherwise". -/
theorem preprocess_vue_tsx_cex :
    (preprocessVue cexVueTsx).2 = "typescript".toList ∧
      subMem cexVueTsx langTsDq = false ∧ subMem cexVueTsx langTsSq = false := by
  decide

/-! # C6 — find_cycles returns the SCCs of size ≥ 2, largest first -/

theorem mem_succList {g : Digraph} {v x : Nat} : x ∈ succList g v ↔ (v, x) ∈ g.edges := by
  unfold succList
  constructor
  · intro h
    obtain ⟨e, he, rfl⟩ := List.mem_map.mp h
    obtain ⟨he1, he2⟩ := List.mem_filter.mp he
    obtain ⟨a, b⟩ := e
    have : a = v := by simpa using he2
    subst this
    exact he1
  · intro h
    exact List.mem_map.mpr ⟨(v, x), List.mem_filter.mpr ⟨h, by simp⟩, rfl⟩

theorem mem_closeStep {g : Digraph} {s : List Nat} {x : Nat} :
    x ∈ closeStep g s ↔ x ∈ s ∨ ∃ y ∈ s, (y, x) ∈ g.edges := by
  unfold closeStep
  rw [List.mem_dedup, List.mem_append, List.mem_flatMap]
  simp [mem_succList]

theorem subset_closeStep (g : Digraph) (s : List Nat) : s ⊆ closeStep g s :=
  fun _ hx => mem_closeStep.mpr (Or.inl hx)

theorem subset_iterClose (g : Digraph) : ∀ (n : Nat) (s : List Nat), s ⊆ iterClose g n s
  | 0, _ => fun _ hx => hx
  | n + 1, s => fun _ hx =>
      subset_iterClose g n (closeStep g s) (subset_closeStep g s hx)

theorem iterClose_subset_of_closed (g : Digraph) :
    ∀ (n : Nat) (s : List Nat), closeStep g s ⊆ s → iterClose g n s ⊆ s
  | 0, _, _ => fun _ hx => hx
  | n + 1, s, h => by
      intro x hx
      have hcc : closeStep g (closeStep g s) ⊆ closeStep g s := by
        intro y hy
        rcases mem_closeStep.mp hy with hy | ⟨z, hz, hedge⟩
        · exact hy
        · exact mem_closeStep.mpr (Or.inr ⟨z, h hz, hedge⟩)
      exact h (iterClose_subset_of_closed g n (closeStep g s) hcc hx)

theorem closeStep_subset_nodes (g : Digraph)
    (he : ∀ e ∈ g.edges, e.1 ∈ g.nodes ∧ e.2 ∈ g.nodes)
    (s : List Nat) (hs : s ⊆ g.nodes) : closeStep g s ⊆ g.nodes := by
  intro x hx
  rcases mem_closeStep.mp hx with hx | ⟨y, -, hedge⟩
  · exact hs hx
  · exact (he _ hedge).2

theorem iterClose_closed (g : Digraph)
    (he : ∀ e ∈ g.edges, e.1 ∈ g.nodes ∧ e.2 ∈ g.nodes) :
    ∀ (n : Nat) (s : List Nat), s ⊆ g.nodes →
      g.nodes.toFinset.card ≤ s.toFinset.card + n →
      closeStep g (iterClose g n s) ⊆ iterClose g n s := by
  intro n
  induction n with
  | zero =>
    intro s hs hcard
    have hsub : s.toFinset ⊆ g.nodes.toFinset := by
      intro x hx
      exact List.mem_toFinset.mpr (hs (List.mem_toFinset.mp hx))
    have heq : s.toFinset = g.nodes.toFinset :=
      (Finset.eq_of_subset_of_card_le hsub (by simpa using hcard))
    intro x hx
    rcases mem_closeStep.mp hx with h | ⟨y, hy, hedge⟩
    · exact h
    · have hxn : x ∈ g.nodes := (he _ hedge).2
      exact List.mem_toFinset.mp (heq ▸ List.mem_toFinset.mpr hxn)
  | succ n ih =>
    intro s hs hcard
    by_cases hstep : closeStep g s ⊆ s
    · have hiter_sub : iterClose g (n + 1) s ⊆ s :=
        iterClose_subset_of_closed g (n + 1) s hstep
      intro x hx
      rcases mem_closeStep.mp hx with hx' | ⟨y, hy, hedge⟩
      · exact hx'
      · have hys : y ∈ s := hiter_sub hy
        have hxcs : x ∈ closeStep g s := mem_closeStep.mpr (Or.inr ⟨y, hys, hedge⟩)
        have hxs : x ∈ s := hstep hxcs
        exact subset_iterClose g (n + 1) s hxs
    · obtain ⟨x0, hx0c, hx0s⟩ : ∃ x0 ∈ closeStep g s, x0 ∉ s := by
        by_contra hcon
        push_neg at hcon
        exact hstep hcon
      have hss : s.toFinset ⊆ (closeStep g s).toFinset := by
        intro x hx
        exact List.mem_toFinset.mpr (subset_closeStep g s (List.mem_toFinset.mp hx))
      have hssub : s.toFinset ⊂ (closeStep g s).toFinset :=
        (Finset.ssubset_iff_of_subset hss).mpr
          ⟨x0, List.mem_toFinset.mpr hx0c, fun hmem => hx0s (List.mem_toFinset.mp hmem)⟩
      have hlt : s.toFinset.card < (closeStep g s).toFinset.card :=
        Finset.card_lt_card hssub
      exact ih (closeStep g s) (closeStep_subset_nodes g he s hs) (by omega)

theorem closeStep_reachList (g : Digraph)
    (he : ∀ e ∈ g.edges, e.1 ∈ g.nodes ∧ e.2 ∈ g.nodes)
    {u : Nat} (hu : u ∈ g.nodes) :
    closeStep g (reachList g u) ⊆ reachList g u := by
  unfold reachList
  apply iterClose_closed g he g.nodes.length [u] (by simpa using hu)
  have h1 : g.nodes.toFinset.card ≤ g.nodes.length := List.toFinset_card_le _
  have h2 : ([u] : List Nat).toFinset.card = 1 := by simp
  omega

theorem reach_sound (g : Digraph) (u : Nat) :
    ∀ (n : Nat) (s : List Nat), (∀ x ∈ s, Reaches g u x) →
      ∀ x ∈ iterClose g n s, Reaches g u x
  | 0, _, hs, x, hx => hs x hx
  | n + 1, s, hs, x, hx => by
      refine reach_sound g u n (closeStep g s) ?_ x hx
      intro y hy
      rcases mem_closeStep.mp hy with hy | ⟨z, hz, hedge⟩
      · exact hs y hy
      · exact Relation.ReflTransGen.tail (hs z hz) hedge

theorem mem_reachList_iff (g : Digraph)
    (he : ∀ e ∈ g.edges, e.1 ∈ g.nodes ∧ e.2 ∈ g.nodes)
    {u : Nat} (hu : u ∈ g.nodes) (v : Nat) :
    v ∈ reachList g u ↔ Reaches g u v := by
  constructor
  · intro h
    refine reach_sound g u g.nodes.length [u] ?_ v h
    intro x hx
    rcases List.mem_singleton.mp hx with rfl
    exact Relation.ReflTransGen.refl
  · intro h
    induction h with
    | refl => exact subset_iterClose g g.nodes.length [u] (List.mem_singleton.mpr rfl)
    | tail hab hedge ih =>
      exact closeStep_reachList g he hu (mem_closeStep.mpr (Or.inr ⟨_, ih, hedge⟩))

theorem reachableB_iff (g : Digraph)
    (he : ∀ e ∈ g.edges, e.1 ∈ g.nodes ∧ e.2 ∈ g.nodes)
    {u v : Nat} (hu : u ∈ g.nodes) :
    reachableB g u v = true ↔ Reaches g u v := by
  unfold reachableB
  rw [decide_eq_true_eq]
  exact mem_reachList_iff g he hu v

theorem mem_sccOf_iff (g : Digraph)
    (he : ∀ e ∈ g.edges, e.1 ∈ g.nodes ∧ e.2 ∈ g.nodes)
    {v : Nat} (hv : v ∈ g.nodes) (u : Nat) :
    u ∈ sccOf g v ↔ (u ∈ g.nodes ∧ InSameSCC g v u) := by
  unfold sccOf
  rw [List.mem_filter]
  constructor
  · rintro ⟨hu, hb⟩
    simp only [Bool.and_eq_true] at hb
    exact ⟨hu, (reachableB_iff g he hv).mp hb.1, (reachableB_iff g he hu).mp hb.2⟩
  · rintro ⟨hu, h1, h2⟩
    refine ⟨hu, ?_⟩
    simp only [Bool.and_eq_true]
    exact ⟨(reachableB_iff g he hv).mpr h1, (reachableB_iff g he hu).mpr h2⟩

theorem sccOf_congr (g : Digraph)
    (he : ∀ e ∈ g.edges, e.1 ∈ g.nodes ∧ e.2 ∈ g.nodes)
    {v w : Nat} (hv : v ∈ g.nodes) (hw : w ∈ g.nodes) (h : InSameSCC g v w) (u : Nat) :
    u ∈ sccOf g v ↔ u ∈ sccOf g w := by
  rw [mem_sccOf_iff g he hv, mem_sccOf_iff g he hw]
  constructor
  · rintro ⟨hu, h1, h2⟩
    exact ⟨hu, h.2.trans h1, h2.trans h.1⟩
  · rintro ⟨hu, h1, h2⟩
    exact ⟨hu, h.1.trans h1, h2.trans h.2⟩

theorem sccAux_sound (g : Digraph) :
    ∀ (pending covered : List Nat), (∀ x ∈ pending, x ∈ g.nodes) →
      ∀ c ∈ sccAux g pending covered, ∃ v ∈ g.nodes, c = sccOf g v := by
  intro pending
  induction pending with
  | nil => intro covered _ c hc; simp [sccAux] at hc
  | cons p rest ih =>
    intro covered hsub c hc
    simp only [sccAux] at hc
    by_cases hp : p ∈ covered
    · rw [if_pos hp] at hc
      exact ih covered (fun x hx => hsub x (List.mem_cons_of_mem _ hx)) c hc
    · rw [if_neg hp] at hc
      rcases List.mem_cons.mp hc with rfl | hc
      · exact ⟨p, hsub p (List.mem_cons_self _ _), rfl⟩
      · exact ih _ (fun x hx => hsub x (List.mem_cons_of_mem _ hx)) c hc

theorem sccAux_complete (g : Digraph)
    (he : ∀ e ∈ g.edges, e.1 ∈ g.nodes ∧ e.2 ∈ g.nodes) :
    ∀ (pending covered : List Nat), (∀ x ∈ pending, x ∈ g.nodes) →
      ∀ v ∈ pending,
        (∃ c ∈ sccAux g pending covered, ∀ u, u ∈ c ↔ u ∈ sccOf g v) ∨ v ∈ covered := by
  intro pending
  induction pending with
  | nil => intro covered _ v hv; simp at hv
  | cons p rest ih =>
    intro covered hsub v hv
    simp only [sccAux]
    by_cases hp : p ∈ covered
    · rw [if_pos hp]
      rcases List.mem_cons.mp hv with rfl | hv'
      · exact Or.inr hp
      · exact ih covered (fun x hx => hsub x (List.mem_cons_of_mem _ hx)) v hv'
    · rw [if_neg hp]
      rcases List.mem_cons.mp hv with rfl | hv'
      · exact Or.inl ⟨sccOf g v, List.mem_cons_self _ _, fun u => Iff.rfl⟩
      · rcases ih (covered ++ sccOf g p) (fun x hx => hsub x (List.mem_cons_of_mem _ hx))
          v hv' with ⟨c, hc, hcc⟩ | h
        · exact Or.inl ⟨c, List.mem_cons_of_mem _ hc, hcc⟩
        · rcases List.mem_append.mp h with h | h
          · exact Or.inr h
          · left
            have hpn : p ∈ g.nodes := hsub p (List.mem_cons_self _ _)
            have hvmem := (mem_sccOf_iff g he hpn v).mp h
            refine ⟨sccOf g p, List.mem_cons_self _ _, fun u => ?_⟩
            exact sccOf_congr g he hpn hvmem.1 hvmem.2 u

theorem sccOf_nodup (g : Digraph) (hn : g.nodes.Nodup) (v : Nat) :
    (sccOf g v).Nodup :=
  hn.filter _

/-- C6: `find_cycles` on any directed graph returns exactly the
strongly connected components (maximal mutual-reachability classes)
having at least two members, ordered by size descending; a three-node
cycle yields exactly one component of size 3. -/
theorem find_cycles_spec (g : Digraph) (hn : g.nodes.Nodup)
    (he : ∀ e ∈ g.edges, e.1 ∈ g.nodes ∧ e.2 ∈ g.nodes) :
    (∀ c ∈ find_cycles g, 2 ≤ c.length ∧
      ∃ v ∈ g.nodes, ∀ u, (u ∈ c ↔ u ∈ g.nodes ∧ InSameSCC g v u)) ∧
    (∀ v ∈ g.nodes, 2 ≤ (sccOf g v).length →
      ∃ c ∈ find_cycles g, ∀ u, (u ∈ c ↔ u ∈ g.nodes ∧ InSameSCC g v u)) ∧
    (∀ v ∈ g.nodes, ∀ u, (u ∈ sccOf g v ↔ u ∈ g.nodes ∧ InSameSCC g v u)) ∧
    List.Pairwise (fun a b => b.length ≤ a.length) (find_cycles g) ∧
    find_cycles witCycleGraph = [[1, 2, 3]] := by
  have hchar := fun v (hv : v ∈ g.nodes) u => mem_sccOf_iff g he hv u
  refine ⟨?_, ?_, hchar, ?_, by decide⟩
  · intro c hc
    by_cases hempty : g.nodes.length = 0
    · rw [find_cycles, if_pos hempty] at hc
      simp at hc
    rw [find_cycles, if_neg hempty] at hc
    rw [mem_pySort] at hc
    obtain ⟨c', hc', rfl⟩ := List.mem_map.mp hc
    obtain ⟨hmem, hlen⟩ := List.mem_filter.mp hc'
    obtain ⟨v, hv, rfl⟩ := sccAux_sound g g.nodes [] (fun x hx => hx) c' hmem
    refine ⟨by rw [length_pySort]; exact of_decide_eq_true hlen, v, hv, fun u => ?_⟩
    rw [mem_pySort]
    exact hchar v hv u
  · intro v hv hlen
    by_cases hempty : g.nodes.length = 0
    · rw [List.length_eq_zero] at hempty
      rw [hempty] at hv
      simp at hv
    rcases sccAux_complete g he g.nodes [] (fun x hx => hx) v hv with ⟨c, hc, hcc⟩ | h
    · obtain ⟨w, hw, rfl⟩ := sccAux_sound g g.nodes [] (fun x hx => hx) c hc
      have hlen' : (sccOf g w).length = (sccOf g v).length := by
        have hfs : (sccOf g w).toFinset = (sccOf g v).toFinset := by
          ext u
          rw [List.mem_toFinset, List.mem_toFinset]
          exact hcc u
        rw [← List.toFinset_card_of_nodup (sccOf_nodup g hn w),
          ← List.toFinset_card_of_nodup (sccOf_nodup g hn v), hfs]
      refine ⟨pySort (fun a b => decide (a ≤ b)) (sccOf g w), ?_, fun u => ?_⟩
      · rw [find_cycles, if_neg hempty, mem_pySort]
        refine List.mem_map.mpr ⟨sccOf g w, List.mem_filter.mpr ⟨hc, ?_⟩, rfl⟩
        rw [decide_eq_true_eq, hlen']
        exact hlen
      · rw [mem_pySort, hcc u]
        exact hchar v hv u
    · simp at h
  · unfold find_cycles
    split
    · exact List.Pairwise.nil
    · have hp := @pairwise_pySort (List Nat) (fun a b => decide (b.length ≤ a.length))
        (fun a b c h1 h2 => by
          rw [decide_eq_true_eq] at *
          omega)
        (fun a b => by
          rcases le_total a.length b.length with h | h
          · exact Or.inr (decide_eq_true_eq.mpr h)
          · exact Or.inl (decide_eq_true_eq.mpr h))
        (((stronglyConnectedComponents g).filter (fun c => 2 ≤ c.length)).map
          (fun c => pySort (fun a b => decide (a ≤ b)) c))
      exact hp.imp (fun h => of_decide_eq_true h)

/-- Witness: the three-node cycle yields the single component
`[1, 2, 3]`, which is its own SCC. -/
theorem find_cycles_spec_witness :
    find_cycles witCycleGraph = [[1, 2, 3]] ∧
      ∃ c ∈ find_cycles witCycleGraph,
        ∀ u, (u ∈ c ↔ u ∈ witCycleGraph.nodes ∧ InSameSCC witCycleGraph 1 u) := by
  have h := find_cycles_spec witCycleGraph (by decide) (by decide)
  exact ⟨h.2.2.2.2, h.2.1 1 (by decide) (by decide)⟩

end Roam
